import Mathlib

set_option maxHeartbeats 1000000
set_option maxRecDepth 4000

/-! Shallow embedding of the TLV codec (tlv.go, package tlv, 2019-2023 revision).

Bytes are modelled as `Nat` (Go `byte` values, always < 256 in reachable
states); buffers are `List Nat`.  Go's `map[Type]interface{}` (`Values`) is
modelled as an association list `List (Nat × Value)` with unique keys; the
`interface{}` slot becomes the closed sum `Value`, whose `vUnsupported`
constructor stands for any dynamic value outside the five supported kinds
(e.g. a float64).  Machine integers are `Nat` with explicit `% 2^w` where the
Go code truncates. -/

/-- The dynamic values a `Values` map can hold.  `vString`/`vData` carry the
UTF-8/raw bytes; `vUnsupported` models a value of any Go type outside the
five kinds handled by `Marshal`. -/
inductive Value where
  | vBool (b : Bool)
  | vUInt8 (n : Nat)
  | vUInt16 (n : Nat)
  | vUInt32 (n : Nat)
  | vUInt64 (n : Nat)
  | vString (s : List Nat)
  | vData (d : List Nat)
  | vMap (m : List (Nat × Value))
  | vUnsupported (id : Nat)

/-- `Values` is `map[Type]interface{}`: association list with unique keys. -/
abbrev Values := List (Nat × Value)

/-- The error values of tlv.go.  `errorTruncated` is `ErrorTruncated`
("truncated data"), `errorEOF` is `ErrorEOF` ("unexpected EOF"),
`invalidIntLength` is the `fmt.Errorf("invalid integer data length %d")`,
`invalidVType` is `fmt.Errorf("invalid value type %s")` and
`unsupportedValue` is the marshal-time
`fmt.Errorf("type %T (val=%v) not supported", val, val)` whose message embeds
the offending value. -/
inductive TLVError where
  | errorTruncated
  | errorEOF
  | invalidIntLength (len : Nat)
  | invalidVType (vt : Nat)
  | unsupportedValue (val : Value)

/-- Result of `Unmarshal`: `crash` models a Go runtime panic
(index out of range), which is not an error return. -/
inductive UResult where
  | ok (vs : Values)
  | err (e : TLVError)
  | crash

/-- `func (t *Tag) SetType(val Type)`: `*t = Tag(val)<<3 | Tag(*t&0x7)`.
`Type` is `uint32`, hence the `% 2^32`. -/
def Tag.SetType (t val : Nat) : Nat := ((val % 2 ^ 32) <<< 3) ||| (t &&& 0x7)

/-- `func (t *Tag) SetVType(val VType)`: `*t = Tag(*t&^0x7) | Tag(val)`.
The and-not `t &^ 0x7` clears the low three bits, i.e. `(t >>> 3) <<< 3`. -/
def Tag.SetVType (t val : Nat) : Nat := ((t >>> 3) <<< 3) ||| val

/-- `func (t Tag) Type() Type`: `Type(t >> 3)` with `Type = uint32`. -/
def tagType (t : Nat) : Nat := (t >>> 3) % 2 ^ 32

/-- `func (t Tag) VType() VType`: `VType(t & 0x7)`. -/
def tagVType (t : Nat) : Nat := t &&& 0x7

/-- Value type constants (`VTBool VType = iota` etc.). -/
def VTBool : Nat := 0
def VTInt : Nat := 1
def VTString : Nat := 2
def VTData : Nat := 3
def VTMap : Nat := 4

/-- The first loop of `marshalInt`: skip zero septets.  The Go loop starts
with `mask = 0x7f<<28`, `i = 4` and decrements `i` while `val&mask == 0`,
so it stops at the largest `i ∈ {1,...,4}` whose septet is non-zero
(`i = 0` if all of them are zero). -/
def marshalIntStart (val : Nat) : Nat :=
  if val &&& (0x7f <<< 28) ≠ 0 then 4
  else if val &&& (0x7f <<< 21) ≠ 0 then 3
  else if val &&& (0x7f <<< 14) ≠ 0 then 2
  else if val &&& (0x7f <<< 7) ≠ 0 then 1
  else 0

/-- The second loop of `marshalInt`: write septets `i, i-1, ..., 0`,
setting the continuation bit `0x80` on every byte but the last. -/
def marshalIntLoop (val : Nat) : Nat → List Nat
  | 0 => [val &&& 0x7f]
  | i + 1 =>
    (((val &&& (0x7f <<< (7 * (i + 1)))) >>> (7 * (i + 1))) ||| 0x80)
      :: marshalIntLoop val i

/-- `func marshalInt(val uint64, buf *bytes.Buffer)`: the emitted bytes. -/
def marshalInt (val : Nat) : List Nat := marshalIntLoop val (marshalIntStart val)

/-- The body of `unmarshalInt`'s loop (`for i := 0; i < 5; i++`), with the
remaining iteration count as fuel.  Running out of data or out of the five
iterations returns `ErrorEOF`. -/
def unmarshalIntLoop (data : List Nat) : Nat → Nat → Nat → Except TLVError (Nat × Nat)
  | _, _, 0 => .error .errorEOF
  | ofs, result, fuel + 1 =>
    match data[ofs]? with
    | none => .error .errorEOF
    | some b =>
      let val := b &&& 0x7f
      let result2 := (result <<< 7) ||| val
      if b &&& 0x80 = 0 then .ok (result2, ofs + 1)
      else unmarshalIntLoop data (ofs + 1) result2 fuel

/-- `func unmarshalInt(data []byte, ofs int) (uint64, int, error)`. -/
def unmarshalInt (data : List Nat) (ofs : Nat) : Except TLVError (Nat × Nat) :=
  unmarshalIntLoop data ofs 0 5

/-- `binary.BigEndian.PutUint16`: big-endian bytes of the low 16 bits. -/
def putUint16 (v : Nat) : List Nat := [(v >>> 8) % 256, v % 256]

/-- `binary.BigEndian.PutUint32`. -/
def putUint32 (v : Nat) : List Nat :=
  [(v >>> 24) % 256, (v >>> 16) % 256, (v >>> 8) % 256, v % 256]

/-- `binary.BigEndian.PutUint64`. -/
def putUint64 (v : Nat) : List Nat :=
  [(v >>> 56) % 256, (v >>> 48) % 256, (v >>> 40) % 256, (v >>> 32) % 256,
   (v >>> 24) % 256, (v >>> 16) % 256, (v >>> 8) % 256, v % 256]

/-- `binary.BigEndian.Uint16` on two bytes. -/
def boUint16 (b0 b1 : Nat) : Nat := (b0 <<< 8) ||| b1

/-- `binary.BigEndian.Uint32` on four bytes. -/
def boUint32 (b0 b1 b2 b3 : Nat) : Nat :=
  (b0 <<< 24) ||| (b1 <<< 16) ||| (b2 <<< 8) ||| b3

/-- `binary.BigEndian.Uint64` on eight bytes. -/
def boUint64 (b0 b1 b2 b3 b4 b5 b6 b7 : Nat) : Nat :=
  (b0 <<< 56) ||| (b1 <<< 48) ||| (b2 <<< 40) ||| (b3 <<< 32) |||
  (b4 <<< 24) ||| (b5 <<< 16) ||| (b6 <<< 8) ||| b7

/-- Go map read `v[key]` on the association-list model. -/
def lookupV : Values → Nat → Option Value
  | [], _ => none
  | (k, x) :: rest, key => if k = key then some x else lookupV rest key

/-- Ordered insert used to model `sort.Slice(keys, keys[i] < keys[j])`. -/
def insertKey (k : Nat) : List Nat → List Nat
  | [] => [k]
  | k2 :: rest => if k ≤ k2 then k :: k2 :: rest else k2 :: insertKey k rest

/-- Insertion sort of the key list. -/
def sortKeys : List Nat → List Nat
  | [] => []
  | k :: rest => insertKey k (sortKeys rest)

/-- `func (v Values) Keys() []Type`: the keys in ascending order. -/
def Values.Keys (v : Values) : List Nat := sortKeys (v.map Prod.fst)

/-- `lookupV v k = some x` finds `x` inside `v`, so `x` is smaller. -/
theorem lookupV_sizeOf {v : Values} {k : Nat} {x : Value}
    (h : lookupV v k = some x) : sizeOf x < sizeOf v := by
  induction v with
  | nil => simp [lookupV] at h
  | cons p rest ih =>
    obtain ⟨k2, y⟩ := p
    by_cases hk : k2 = k
    · simp [lookupV, hk] at h
      subst h
      simp
      omega
    · simp [lookupV, hk] at h
      have := ih h
      simp
      omega

mutual
/-- One arm of the `switch val := v[key].(type)` in `Values.Marshal`:
the bytes appended to the buffer for field `key` holding value `val`
(tag varint, length, payload), or the marshal-time error. -/
def marshalValue (key : Nat) : Value → Except TLVError (List Nat)
  | .vBool b =>
    .ok (marshalInt (Tag.SetVType (Tag.SetType 0 key) VTBool) ++
         [1, if b then 1 else 0])
  | .vUInt8 n =>
    .ok (marshalInt (Tag.SetVType (Tag.SetType 0 key) VTInt) ++ [1, n])
  | .vUInt16 n =>
    .ok (marshalInt (Tag.SetVType (Tag.SetType 0 key) VTInt) ++
         marshalInt 2 ++ putUint16 n)
  | .vUInt32 n =>
    .ok (marshalInt (Tag.SetVType (Tag.SetType 0 key) VTInt) ++
         marshalInt 4 ++ putUint32 n)
  | .vUInt64 n =>
    .ok (marshalInt (Tag.SetVType (Tag.SetType 0 key) VTInt) ++
         marshalInt 8 ++ putUint64 n)
  | .vString s =>
    .ok (marshalInt (Tag.SetVType (Tag.SetType 0 key) VTString) ++
         marshalInt s.length ++ s)
  | .vData d =>
    .ok (marshalInt (Tag.SetVType (Tag.SetType 0 key) VTData) ++
         marshalInt d.length ++ d)
  | .vMap m =>
    match marshalKeyList m (Values.Keys m) with
    | .error e => .error e
    | .ok d =>
      .ok (marshalInt (Tag.SetVType (Tag.SetType 0 key) VTMap) ++
           marshalInt d.length ++ d)
  | .vUnsupported i => .error (.unsupportedValue (.vUnsupported i))
termination_by v => (sizeOf v, 0)
decreasing_by
  apply Prod.Lex.left
  simp
  all_goals omega

/-- The `for _, key := range v.Keys()` loop of `Values.Marshal`:
concatenates the encodings of the listed keys, stopping at the first error.
A key absent from the map is skipped (unreachable when the keys come
from `v.Keys()`). -/
def marshalKeyList (v : Values) : List Nat → Except TLVError (List Nat)
  | [] => .ok []
  | k :: ks =>
    match h : lookupV v k with
    | none => marshalKeyList v ks
    | some x =>
      match marshalValue k x with
      | .error e => .error e
      | .ok bs =>
        match marshalKeyList v ks with
        | .error e => .error e
        | .ok rest => .ok (bs ++ rest)
termination_by ks => (sizeOf v, ks.length + 1)
decreasing_by
  · apply Prod.Lex.right
    simp
  · apply Prod.Lex.left
    exact lookupV_sizeOf h
  · apply Prod.Lex.right
    simp
end

/-- `func (v Values) Marshal() ([]byte, error)`. -/
def Values.Marshal (v : Values) : Except TLVError (List Nat) :=
  marshalKeyList v (Values.Keys v)

/-- The Go slice `data[ofs : ofs+len]`. -/
def sub (data : List Nat) (ofs len : Nat) : List Nat := (data.drop ofs).take len

/-- Go map write `result[key] = val`: overwrite an existing entry in place,
otherwise add the pair. -/
def insertV : Values → Nat → Value → Values
  | [], k, x => [(k, x)]
  | (k2, y) :: rest, k, x =>
    if k2 = k then (k, x) :: rest else (k2, y) :: insertV rest k x

/-- The decode loop of `func Unmarshal(data []byte) (Values, error)`, with
explicit fuel (`none` = out of fuel; `unmarshalF_isSome` below shows
`data.length + 1` fuel always suffices).  `result` accumulates the decoded
fields.  `UResult.crash` models the Go runtime panic raised by the
unguarded `data[ofs]` read in the `VTBool` arm. -/
def unmarshalF : Nat → List Nat → Nat → Values → Option UResult
  | 0, _, _, _ => none
  | fuel + 1, data, ofs, result =>
    if ofs < data.length then
      match unmarshalInt data ofs with
      | .error e => some (.err e)
      | .ok (ival, ofs1) =>
        match unmarshalInt data ofs1 with
        | .error e => some (.err e)
        | .ok (length, ofs2) =>
          if ofs2 + length > data.length then some (.err .errorTruncated)
          else
            let vt := tagVType ival
            if vt = VTBool then
              match data[ofs2]? with
              | none => some .crash
              | some b =>
                unmarshalF fuel data (ofs2 + length)
                  (insertV result (tagType ival)
                    (if b ≠ 0 then .vBool true else .vBool false))
            else if vt = VTInt then
              if length = 1 then
                unmarshalF fuel data (ofs2 + length)
                  (insertV result (tagType ival) (.vUInt8 (data.getD ofs2 0)))
              else if length = 2 then
                unmarshalF fuel data (ofs2 + length)
                  (insertV result (tagType ival)
                    (.vUInt16 (boUint16 (data.getD ofs2 0) (data.getD (ofs2 + 1) 0))))
              else if length = 4 then
                unmarshalF fuel data (ofs2 + length)
                  (insertV result (tagType ival)
                    (.vUInt32 (boUint32 (data.getD ofs2 0) (data.getD (ofs2 + 1) 0)
                      (data.getD (ofs2 + 2) 0) (data.getD (ofs2 + 3) 0))))
              else if length = 8 then
                unmarshalF fuel data (ofs2 + length)
                  (insertV result (tagType ival)
                    (.vUInt64 (boUint64 (data.getD ofs2 0) (data.getD (ofs2 + 1) 0)
                      (data.getD (ofs2 + 2) 0) (data.getD (ofs2 + 3) 0)
                      (data.getD (ofs2 + 4) 0) (data.getD (ofs2 + 5) 0)
                      (data.getD (ofs2 + 6) 0) (data.getD (ofs2 + 7) 0))))
              else some (.err (.invalidIntLength length))
            else if vt = VTString then
              unmarshalF fuel data (ofs2 + length)
                (insertV result (tagType ival) (.vString (sub data ofs2 length)))
            else if vt = VTData then
              unmarshalF fuel data (ofs2 + length)
                (insertV result (tagType ival) (.vData (sub data ofs2 length)))
            else if vt = VTMap then
              match unmarshalF fuel (sub data ofs2 length) 0 [] with
              | none => none
              | some .crash => some .crash
              | some (.err e) => some (.err e)
              | some (.ok m) =>
                unmarshalF fuel data (ofs2 + length)
                  (insertV result (tagType ival) (.vMap m))
            else some (.err (.invalidVType vt))
    else some (.ok result)

/-- `func Unmarshal(data []byte) (Values, error)`.  The fuel
`data.length + 1` never runs out (`unmarshalF_isSome`), so the `none`
fallback is unreachable. -/
def Unmarshal (data : List Nat) : UResult :=
  match unmarshalF (data.length + 1) data 0 [] with
  | some r => r
  | none => .err .errorEOF

/-- The `VType` constant `Marshal` uses for a value, as a `Nat`. -/
def vtypeOf : Value → Nat
  | .vBool _ => VTBool
  | .vUInt8 _ => VTInt
  | .vUInt16 _ => VTInt
  | .vUInt32 _ => VTInt
  | .vUInt64 _ => VTInt
  | .vString _ => VTString
  | .vData _ => VTData
  | .vMap _ => VTMap
  | .vUnsupported _ => 7

mutual
/-- Payload byte count a value marshals to (the L of its TLV record). -/
def payloadLen : Value → Nat
  | .vBool _ => 1
  | .vUInt8 _ => 1
  | .vUInt16 _ => 2
  | .vUInt32 _ => 4
  | .vUInt64 _ => 8
  | .vString s => s.length
  | .vData d => d.length
  | .vMap m => encLen m
  | .vUnsupported _ => 0

/-- Total encoded byte count of a mapping (assuming list order is the
emission order). -/
def encLen : Values → Nat
  | [] => 0
  | (k, x) :: rest =>
    (marshalInt (Tag.SetVType (Tag.SetType 0 k) (vtypeOf x))).length +
    (marshalInt (payloadLen x)).length + payloadLen x + encLen rest
end

/-- Keys strictly ascending along the list (canonical order of a map). -/
def sortedKeys : Values → Bool
  | [] => true
  | [_] => true
  | (k1, x) :: (k2, y) :: rest => k1 < k2 && sortedKeys ((k2, y) :: rest)

mutual
/-- Well-formedness of a single value: the bounds guaranteed by the Go
types (uintN values fit in N bits, bytes are bytes) plus the varint
encodability bound < 2^35 on every emitted payload length; nested maps are
canonically sorted.  `vUnsupported` is not well-formed. -/
def ValueWF : Value → Bool
  | .vBool _ => true
  | .vUInt8 n => decide (n < 2 ^ 8)
  | .vUInt16 n => decide (n < 2 ^ 16)
  | .vUInt32 n => decide (n < 2 ^ 32)
  | .vUInt64 n => decide (n < 2 ^ 64)
  | .vString s => decide (s.length < 2 ^ 35) && s.all (fun b => decide (b < 256))
  | .vData d => decide (d.length < 2 ^ 35) && d.all (fun b => decide (b < 256))
  | .vMap m => sortedKeys m && ValuesWF m && decide (encLen m < 2 ^ 35)
  | .vUnsupported _ => false

/-- Well-formedness of all entries of a mapping: keys are `uint32` values
and every value is well-formed. -/
def ValuesWF : Values → Bool
  | [] => true
  | (k, x) :: rest => decide (k < 2 ^ 32) && ValueWF x && ValuesWF rest
end

mutual
/-- The first unsupported value `Values.Marshal` meets: fields are walked
in ascending key order, nested maps depth-first.  `none` when marshaling
succeeds. -/
def firstUnsupportedV : Value → Option Value
  | .vMap m => firstUnsupportedKeys m (Values.Keys m)
  | .vUnsupported i => some (.vUnsupported i)
  | _ => none
termination_by v => (sizeOf v, 0)
decreasing_by
  apply Prod.Lex.left
  simp
  all_goals omega

/-- Walk of the listed keys looking for the first unsupported value. -/
def firstUnsupportedKeys (v : Values) : List Nat → Option Value
  | [] => none
  | k :: ks =>
    match h : lookupV v k with
    | none => firstUnsupportedKeys v ks
    | some x =>
      match firstUnsupportedV x with
      | some u => some u
      | none => firstUnsupportedKeys v ks
termination_by ks => (sizeOf v, ks.length + 1)
decreasing_by
  · apply Prod.Lex.right
    simp
  · apply Prod.Lex.left
    exact lookupV_sizeOf h
  · apply Prod.Lex.right
    simp
end

/-- First unsupported value of a whole mapping, in marshal order. -/
def firstUnsupportedVs (v : Values) : Option Value :=
  firstUnsupportedKeys v (Values.Keys v)

/-! ### Arithmetic and bitwise helpers -/

theorem and127_eq (x : Nat) : x &&& 127 = x % 128 := by
  have h := Nat.and_pow_two_sub_one_eq_mod x 7
  norm_num at h
  exact h

theorem and7_eq (x : Nat) : x &&& 7 = x % 8 := by
  have h := Nat.and_pow_two_sub_one_eq_mod x 3
  norm_num at h
  exact h

theorem or_eq_add_of_mod {a b k : Nat} (ha : a % 2 ^ k = 0) (hb : b < 2 ^ k) :
    a ||| b = a + b := by
  have h2 : 2 ^ k * (a / 2 ^ k) = a := Nat.mul_div_cancel' (Nat.dvd_of_mod_eq_zero ha)
  calc a ||| b = 2 ^ k * (a / 2 ^ k) ||| b := by rw [h2]
    _ = 2 ^ k * (a / 2 ^ k) + b := (Nat.mul_add_lt_is_or hb _).symm
    _ = a + b := by rw [h2]

theorem shiftLeft_mod (a k : Nat) : (a <<< k) % 2 ^ k = 0 := by
  rw [Nat.shiftLeft_eq]
  exact Nat.mul_mod_left a (2 ^ k)

theorem and_shiftLeft_eq (v m k : Nat) : v &&& (m <<< k) = ((v >>> k) &&& m) <<< k := by
  apply Nat.eq_of_testBit_eq
  intro j
  by_cases hj : k ≤ j
  · simp [Nat.testBit_and, Nat.testBit_shiftLeft, Nat.testBit_shiftRight, hj,
      Nat.add_sub_cancel' hj, Bool.and_left_comm, Bool.and_comm]
  · simp [Nat.testBit_and, Nat.testBit_shiftLeft, hj]

theorem mask_and_eq (v k : Nat) : v &&& (127 <<< k) = v / 2 ^ k % 128 * 2 ^ k := by
  rw [and_shiftLeft_eq, and127_eq, Nat.shiftRight_eq_div_pow, Nat.shiftLeft_eq]

theorem mask_shift_eq (v k : Nat) : (v &&& (127 <<< k)) >>> k = v / 2 ^ k % 128 := by
  rw [mask_and_eq, Nat.shiftRight_eq_div_pow]
  exact Nat.mul_div_cancel _ (Nat.pos_pow_of_pos k (by norm_num))

theorem or128_eq {x : Nat} (h : x < 128) : x ||| 128 = 128 + x := by
  rw [Nat.lor_comm]
  exact or_eq_add_of_mod (k := 7) (by norm_num) (h.trans_le (by norm_num))

theorem and128_eq_zero {x : Nat} (h : x < 128) : x &&& 128 = 0 := by
  have h1 : x &&& 2 ^ 7 = (x.testBit 7).toNat * 2 ^ 7 := Nat.and_two_pow x 7
  rw [Nat.testBit_lt_two_pow (h.trans_le (by norm_num))] at h1
  norm_num at h1
  exact h1

theorem or128_and128 {x : Nat} (h : x < 128) : (x ||| 128) &&& 128 = 128 := by
  rw [or128_eq h]
  have h1 : (128 + x) &&& 2 ^ 7 = ((128 + x).testBit 7).toNat * 2 ^ 7 :=
    Nat.and_two_pow _ 7
  have h2 : (128 + x).testBit 7 = true := by
    simp only [Nat.testBit_to_div_mod, decide_eq_true_eq]
    have e : (2 : Nat) ^ 7 = 128 := by norm_num
    rw [e]
    omega
  rw [h2] at h1
  norm_num at h1
  exact h1

theorem or128_and127 {x : Nat} (h : x < 128) : (x ||| 128) &&& 127 = x := by
  rw [or128_eq h, and127_eq]
  omega

theorem shl7_or_eq (r b : Nat) (hb : b < 128) : (r <<< 7) ||| b = 128 * r + b := by
  rw [or_eq_add_of_mod (shiftLeft_mod r 7) (hb.trans_le (by norm_num)), Nat.shiftLeft_eq]
  have e : (2 : Nat) ^ 7 = 128 := by norm_num
  rw [e]
  ring

/-! ### List drop helpers -/

theorem drop_cons_elim {data R : List Nat} {ofs b : Nat}
    (h : data.drop ofs = b :: R) : data[ofs]? = some b ∧ data.drop (ofs + 1) = R := by
  constructor
  · have h0 : (data.drop ofs)[0]? = some b := by rw [h]; simp
    rw [List.getElem?_drop] at h0
    simpa using h0
  · have h2 := List.tail_drop data ofs
    rw [h] at h2
    exact h2.symm

theorem drop_append_elim {data A R : List Nat} {ofs : Nat}
    (h : data.drop ofs = A ++ R) : data.drop (ofs + A.length) = R := by
  calc data.drop (ofs + A.length) = (data.drop ofs).drop A.length :=
        (List.drop_drop A.length ofs data).symm
    _ = (A ++ R).drop A.length := by rw [h]
    _ = R := List.drop_left A R

theorem drop_rem_length {data R : List Nat} {ofs : Nat}
    (h : data.drop ofs = R) : data.length - ofs = R.length := by
  rw [← h]
  simp

/-! ### Varint loop lemmas -/

theorem unmarshalIntLoop_step {data : List Nat} {ofs b : Nat} (r fuel : Nat)
    (hb : data[ofs]? = some b) (hc : b &&& 128 ≠ 0) :
    unmarshalIntLoop data ofs r (fuel + 1) =
      unmarshalIntLoop data (ofs + 1) ((r <<< 7) ||| (b &&& 127)) fuel := by
  simp [unmarshalIntLoop, hb, hc]

theorem unmarshalIntLoop_last {data : List Nat} {ofs b : Nat} (r fuel : Nat)
    (hb : data[ofs]? = some b) (hc : b &&& 128 = 0) :
    unmarshalIntLoop data ofs r (fuel + 1) = .ok ((r <<< 7) ||| (b &&& 127), ofs + 1) := by
  simp [unmarshalIntLoop, hb, hc]

theorem unmarshalIntLoop_none {data : List Nat} {ofs : Nat} (r fuel : Nat)
    (hb : data[ofs]? = none) :
    unmarshalIntLoop data ofs r (fuel + 1) = .error .errorEOF := by
  simp [unmarshalIntLoop, hb]

/-! ### The five magnitude bands of marshalInt -/

theorem marshalIntLoop_zero (v : Nat) : marshalIntLoop v 0 = [v &&& 127] := rfl

theorem marshalIntLoop_one (v : Nat) :
    marshalIntLoop v 1 =
      [((v &&& (127 <<< 7)) >>> 7) ||| 128, v &&& 127] := rfl

theorem marshalIntLoop_two (v : Nat) :
    marshalIntLoop v 2 =
      [((v &&& (127 <<< 14)) >>> 14) ||| 128,
       ((v &&& (127 <<< 7)) >>> 7) ||| 128, v &&& 127] := rfl

theorem marshalIntLoop_three (v : Nat) :
    marshalIntLoop v 3 =
      [((v &&& (127 <<< 21)) >>> 21) ||| 128,
       ((v &&& (127 <<< 14)) >>> 14) ||| 128,
       ((v &&& (127 <<< 7)) >>> 7) ||| 128, v &&& 127] := rfl

theorem marshalIntLoop_four (v : Nat) :
    marshalIntLoop v 4 =
      [((v &&& (127 <<< 28)) >>> 28) ||| 128,
       ((v &&& (127 <<< 21)) >>> 21) ||| 128,
       ((v &&& (127 <<< 14)) >>> 14) ||| 128,
       ((v &&& (127 <<< 7)) >>> 7) ||| 128, v &&& 127] := rfl

theorem marshalIntStart_band0 {v : Nat} (h2 : v < 2 ^ 7) : marshalIntStart v = 0 := by
  unfold marshalIntStart
  rw [mask_and_eq v 28, mask_and_eq v 21, mask_and_eq v 14, mask_and_eq v 7]
  rw [if_neg (by omega), if_neg (by omega), if_neg (by omega), if_neg (by omega)]

theorem marshalIntStart_band1 {v : Nat} (h1 : 2 ^ 7 ≤ v) (h2 : v < 2 ^ 14) :
    marshalIntStart v = 1 := by
  unfold marshalIntStart
  rw [mask_and_eq v 28, mask_and_eq v 21, mask_and_eq v 14, mask_and_eq v 7]
  rw [if_neg (by omega), if_neg (by omega), if_neg (by omega), if_pos (by omega)]

theorem marshalIntStart_band2 {v : Nat} (h1 : 2 ^ 14 ≤ v) (h2 : v < 2 ^ 21) :
    marshalIntStart v = 2 := by
  unfold marshalIntStart
  rw [mask_and_eq v 28, mask_and_eq v 21, mask_and_eq v 14]
  rw [if_neg (by omega), if_neg (by omega), if_pos (by omega)]

theorem marshalIntStart_band3 {v : Nat} (h1 : 2 ^ 21 ≤ v) (h2 : v < 2 ^ 28) :
    marshalIntStart v = 3 := by
  unfold marshalIntStart
  rw [mask_and_eq v 28, mask_and_eq v 21]
  rw [if_neg (by omega), if_pos (by omega)]

theorem marshalIntStart_band4 {v : Nat} (h1 : 2 ^ 28 ≤ v) (h2 : v < 2 ^ 35) :
    marshalIntStart v = 4 := by
  unfold marshalIntStart
  rw [mask_and_eq v 28]
  rw [if_pos (by omega)]

theorem marshalInt_band0 {v : Nat} (h2 : v < 2 ^ 7) : marshalInt v = [v % 128] := by
  rw [marshalInt, marshalIntStart_band0 h2, marshalIntLoop_zero, and127_eq]

theorem marshalInt_band1 {v : Nat} (h1 : 2 ^ 7 ≤ v) (h2 : v < 2 ^ 14) :
    marshalInt v = [v / 2 ^ 7 % 128 ||| 128, v % 128] := by
  rw [marshalInt, marshalIntStart_band1 h1 h2, marshalIntLoop_one,
    mask_shift_eq, and127_eq]

theorem marshalInt_band2 {v : Nat} (h1 : 2 ^ 14 ≤ v) (h2 : v < 2 ^ 21) :
    marshalInt v = [v / 2 ^ 14 % 128 ||| 128, v / 2 ^ 7 % 128 ||| 128, v % 128] := by
  rw [marshalInt, marshalIntStart_band2 h1 h2, marshalIntLoop_two,
    mask_shift_eq, mask_shift_eq, and127_eq]

theorem marshalInt_band3 {v : Nat} (h1 : 2 ^ 21 ≤ v) (h2 : v < 2 ^ 28) :
    marshalInt v =
      [v / 2 ^ 21 % 128 ||| 128, v / 2 ^ 14 % 128 ||| 128,
       v / 2 ^ 7 % 128 ||| 128, v % 128] := by
  rw [marshalInt, marshalIntStart_band3 h1 h2, marshalIntLoop_three,
    mask_shift_eq, mask_shift_eq, mask_shift_eq, and127_eq]

theorem marshalInt_band4 {v : Nat} (h1 : 2 ^ 28 ≤ v) (h2 : v < 2 ^ 35) :
    marshalInt v =
      [v / 2 ^ 28 % 128 ||| 128, v / 2 ^ 21 % 128 ||| 128,
       v / 2 ^ 14 % 128 ||| 128, v / 2 ^ 7 % 128 ||| 128, v % 128] := by
  rw [marshalInt, marshalIntStart_band4 h1 h2, marshalIntLoop_four,
    mask_shift_eq, mask_shift_eq, mask_shift_eq, mask_shift_eq, and127_eq]

/-- Decoding an encoded varint: for `n < 2^35` (the encodable range),
`unmarshalInt` run at the start of `marshalInt n` returns exactly `n` and
advances past the encoding. -/
theorem unmarshalInt_marshalInt {n : Nat} (h35 : n < 2 ^ 35) (data rest : List Nat)
    (ofs : Nat) (hd : data.drop ofs = marshalInt n ++ rest) :
    unmarshalInt data ofs = .ok (n, ofs + (marshalInt n).length) := by
  rcases Nat.lt_or_ge n (2 ^ 7) with hb0 | hge7
  · have hlen : (marshalInt n).length = 1 := by rw [marshalInt_band0 hb0]; rfl
    rw [hlen]
    rw [marshalInt_band0 hb0] at hd
    simp only [List.cons_append, List.nil_append] at hd
    obtain ⟨h0, -⟩ := drop_cons_elim hd
    have s0 : n % 128 < 128 := Nat.mod_lt _ (by norm_num)
    have e0 : (0 <<< 7) ||| (n % 128 &&& 127) = n := by
      rw [Nat.zero_shiftLeft, Nat.zero_or, and127_eq]
      omega
    rw [unmarshalInt, unmarshalIntLoop_last _ _ h0 (and128_eq_zero s0), e0]
  · rcases Nat.lt_or_ge n (2 ^ 14) with hb1 | hge14
    · have hlen : (marshalInt n).length = 2 := by rw [marshalInt_band1 hge7 hb1]; rfl
      rw [hlen]
      rw [marshalInt_band1 hge7 hb1] at hd
      simp only [List.cons_append, List.nil_append] at hd
      obtain ⟨h1, hd1⟩ := drop_cons_elim hd
      obtain ⟨h0, -⟩ := drop_cons_elim hd1
      have s1 : n / 2 ^ 7 % 128 < 128 := Nat.mod_lt _ (by norm_num)
      have s0 : n % 128 < 128 := Nat.mod_lt _ (by norm_num)
      have e1 : (0 <<< 7) ||| ((n / 2 ^ 7 % 128 ||| 128) &&& 127) = n / 2 ^ 7 := by
        rw [Nat.zero_shiftLeft, Nat.zero_or, or128_and127 s1]
        omega
      have e0 : ((n / 2 ^ 7) <<< 7) ||| (n % 128 &&& 127) = n := by
        rw [and127_eq, shl7_or_eq _ _ (show n % 128 % 128 < 128 by omega)]
        omega
      rw [unmarshalInt,
        unmarshalIntLoop_step _ _ h1 (by rw [or128_and128 s1]; norm_num), e1,
        unmarshalIntLoop_last _ _ h0 (and128_eq_zero s0), e0]
    · rcases Nat.lt_or_ge n (2 ^ 21) with hb2 | hge21
      · have hlen : (marshalInt n).length = 3 := by rw [marshalInt_band2 hge14 hb2]; rfl
        rw [hlen]
        rw [marshalInt_band2 hge14 hb2] at hd
        simp only [List.cons_append, List.nil_append] at hd
        obtain ⟨h2, hd2⟩ := drop_cons_elim hd
        obtain ⟨h1, hd1⟩ := drop_cons_elim hd2
        obtain ⟨h0, -⟩ := drop_cons_elim hd1
        have s2 : n / 2 ^ 14 % 128 < 128 := Nat.mod_lt _ (by norm_num)
        have s1 : n / 2 ^ 7 % 128 < 128 := Nat.mod_lt _ (by norm_num)
        have s0 : n % 128 < 128 := Nat.mod_lt _ (by norm_num)
        have e2 : (0 <<< 7) ||| ((n / 2 ^ 14 % 128 ||| 128) &&& 127) = n / 2 ^ 14 := by
          rw [Nat.zero_shiftLeft, Nat.zero_or, or128_and127 s2]
          omega
        have e1 : ((n / 2 ^ 14) <<< 7) ||| ((n / 2 ^ 7 % 128 ||| 128) &&& 127) = n / 2 ^ 7 := by
          rw [or128_and127 s1, shl7_or_eq _ _ s1]
          omega
        have e0 : ((n / 2 ^ 7) <<< 7) ||| (n % 128 &&& 127) = n := by
          rw [and127_eq, shl7_or_eq _ _ (show n % 128 % 128 < 128 by omega)]
          omega
        rw [unmarshalInt,
          unmarshalIntLoop_step _ _ h2 (by rw [or128_and128 s2]; norm_num), e2,
          unmarshalIntLoop_step _ _ h1 (by rw [or128_and128 s1]; norm_num), e1,
          unmarshalIntLoop_last _ _ h0 (and128_eq_zero s0), e0]
      · rcases Nat.lt_or_ge n (2 ^ 28) with hb3 | hge28
        · have hlen : (marshalInt n).length = 4 := by
            rw [marshalInt_band3 hge21 hb3]; rfl
          rw [hlen]
          rw [marshalInt_band3 hge21 hb3] at hd
          simp only [List.cons_append, List.nil_append] at hd
          obtain ⟨h3, hd3⟩ := drop_cons_elim hd
          obtain ⟨h2, hd2⟩ := drop_cons_elim hd3
          obtain ⟨h1, hd1⟩ := drop_cons_elim hd2
          obtain ⟨h0, -⟩ := drop_cons_elim hd1
          have s3 : n / 2 ^ 21 % 128 < 128 := Nat.mod_lt _ (by norm_num)
          have s2 : n / 2 ^ 14 % 128 < 128 := Nat.mod_lt _ (by norm_num)
          have s1 : n / 2 ^ 7 % 128 < 128 := Nat.mod_lt _ (by norm_num)
          have s0 : n % 128 < 128 := Nat.mod_lt _ (by norm_num)
          have e3 : (0 <<< 7) ||| ((n / 2 ^ 21 % 128 ||| 128) &&& 127) = n / 2 ^ 21 := by
            rw [Nat.zero_shiftLeft, Nat.zero_or, or128_and127 s3]
            omega
          have e2 : ((n / 2 ^ 21) <<< 7) ||| ((n / 2 ^ 14 % 128 ||| 128) &&& 127)
              = n / 2 ^ 14 := by
            rw [or128_and127 s2, shl7_or_eq _ _ s2]
            omega
          have e1 : ((n / 2 ^ 14) <<< 7) ||| ((n / 2 ^ 7 % 128 ||| 128) &&& 127)
              = n / 2 ^ 7 := by
            rw [or128_and127 s1, shl7_or_eq _ _ s1]
            omega
          have e0 : ((n / 2 ^ 7) <<< 7) ||| (n % 128 &&& 127) = n := by
            rw [and127_eq, shl7_or_eq _ _ (show n % 128 % 128 < 128 by omega)]
            omega
          rw [unmarshalInt,
            unmarshalIntLoop_step _ _ h3 (by rw [or128_and128 s3]; norm_num), e3,
            unmarshalIntLoop_step _ _ h2 (by rw [or128_and128 s2]; norm_num), e2,
            unmarshalIntLoop_step _ _ h1 (by rw [or128_and128 s1]; norm_num), e1,
            unmarshalIntLoop_last _ _ h0 (and128_eq_zero s0), e0]
        · have hlen : (marshalInt n).length = 5 := by
            rw [marshalInt_band4 hge28 h35]; rfl
          rw [hlen]
          rw [marshalInt_band4 hge28 h35] at hd
          simp only [List.cons_append, List.nil_append] at hd
          obtain ⟨h4, hd4⟩ := drop_cons_elim hd
          obtain ⟨h3, hd3⟩ := drop_cons_elim hd4
          obtain ⟨h2, hd2⟩ := drop_cons_elim hd3
          obtain ⟨h1, hd1⟩ := drop_cons_elim hd2
          obtain ⟨h0, -⟩ := drop_cons_elim hd1
          have s4 : n / 2 ^ 28 % 128 < 128 := Nat.mod_lt _ (by norm_num)
          have s3 : n / 2 ^ 21 % 128 < 128 := Nat.mod_lt _ (by norm_num)
          have s2 : n / 2 ^ 14 % 128 < 128 := Nat.mod_lt _ (by norm_num)
          have s1 : n / 2 ^ 7 % 128 < 128 := Nat.mod_lt _ (by norm_num)
          have s0 : n % 128 < 128 := Nat.mod_lt _ (by norm_num)
          have e4 : (0 <<< 7) ||| ((n / 2 ^ 28 % 128 ||| 128) &&& 127) = n / 2 ^ 28 := by
            rw [Nat.zero_shiftLeft, Nat.zero_or, or128_and127 s4]
            omega
          have e3 : ((n / 2 ^ 28) <<< 7) ||| ((n / 2 ^ 21 % 128 ||| 128) &&& 127)
              = n / 2 ^ 21 := by
            rw [or128_and127 s3, shl7_or_eq _ _ s3]
            omega
          have e2 : ((n / 2 ^ 21) <<< 7) ||| ((n / 2 ^ 14 % 128 ||| 128) &&& 127)
              = n / 2 ^ 14 := by
            rw [or128_and127 s2, shl7_or_eq _ _ s2]
            omega
          have e1 : ((n / 2 ^ 14) <<< 7) ||| ((n / 2 ^ 7 % 128 ||| 128) &&& 127)
              = n / 2 ^ 7 := by
            rw [or128_and127 s1, shl7_or_eq _ _ s1]
            omega
          have e0 : ((n / 2 ^ 7) <<< 7) ||| (n % 128 &&& 127) = n := by
            rw [and127_eq, shl7_or_eq _ _ (show n % 128 % 128 < 128 by omega)]
            omega
          rw [unmarshalInt,
            unmarshalIntLoop_step _ _ h4 (by rw [or128_and128 s4]; norm_num), e4,
            unmarshalIntLoop_step _ _ h3 (by rw [or128_and128 s3]; norm_num), e3,
            unmarshalIntLoop_step _ _ h2 (by rw [or128_and128 s2]; norm_num), e2,
            unmarshalIntLoop_step _ _ h1 (by rw [or128_and128 s1]; norm_num), e1,
            unmarshalIntLoop_last _ _ h0 (and128_eq_zero s0), e0]

/-! ### Bounds of the varint decoder and termination fuel -/

theorem unmarshalIntLoop_bounds : ∀ {fuel : Nat} {data : List Nat} {ofs r v ofs2 : Nat},
    unmarshalIntLoop data ofs r fuel = .ok (v, ofs2) → ofs < ofs2 ∧ ofs2 ≤ data.length := by
  intro fuel
  induction fuel with
  | zero =>
    intro data ofs r v ofs2 h
    simp [unmarshalIntLoop] at h
  | succ f ih =>
    intro data ofs r v ofs2 h
    cases hb : data[ofs]? with
    | none =>
      rw [unmarshalIntLoop_none _ _ hb] at h
      simp at h
    | some b =>
      have hofs : ofs < data.length := by
        by_contra hge
        push_neg at hge
        rw [List.getElem?_eq_none hge] at hb
        simp at hb
      by_cases hc : b &&& 128 = 0
      · rw [unmarshalIntLoop_last _ _ hb hc] at h
        simp only [Except.ok.injEq, Prod.mk.injEq] at h
        omega
      · rw [unmarshalIntLoop_step _ _ hb hc] at h
        have := ih h
        omega

theorem unmarshalInt_bounds {data : List Nat} {ofs v ofs2 : Nat}
    (h : unmarshalInt data ofs = .ok (v, ofs2)) : ofs < ofs2 ∧ ofs2 ≤ data.length :=
  unmarshalIntLoop_bounds h

/-- Fuel adequacy: with more fuel than the bytes remaining, the decode loop
never runs out.  Each iteration consumes at least the two header varint
bytes before the payload, and a nested-map recursion runs on a strictly
shorter slice, so `data.length + 1` fuel suffices from offset 0. -/
theorem unmarshalF_isSome (fuel : Nat) :
    ∀ data ofs acc, data.length - ofs < fuel →
      (unmarshalF fuel data ofs acc).isSome = true := by
  induction fuel with
  | zero =>
    intro data ofs acc h
    omega
  | succ f ih =>
    intro data ofs acc h
    rw [unmarshalF]
    by_cases holt : ofs < data.length
    · rw [if_pos holt]
      cases h1 : unmarshalInt data ofs with
      | error e => simp [h1]
      | ok p1 =>
        obtain ⟨ival, ofs1⟩ := p1
        obtain ⟨hlt1, hle1⟩ := unmarshalInt_bounds h1
        simp only [h1]
        cases h2 : unmarshalInt data ofs1 with
        | error e => simp [h2]
        | ok p2 =>
          obtain ⟨length, ofs2⟩ := p2
          obtain ⟨hlt2, hle2⟩ := unmarshalInt_bounds h2
          simp only [h2]
          by_cases htr : ofs2 + length > data.length
          · rw [if_pos htr]
            simp
          · rw [if_neg htr]
            by_cases hvt0 : tagVType ival = VTBool
            · rw [if_pos hvt0]
              cases hby : data[ofs2]? with
              | none => simp [hby]
              | some b =>
                simp only [hby]
                exact ih data (ofs2 + length) _ (by omega)
            · rw [if_neg hvt0]
              by_cases hvt1 : tagVType ival = VTInt
              · rw [if_pos hvt1]
                by_cases hl1 : length = 1
                · rw [if_pos hl1]
                  exact ih data (ofs2 + length) _ (by omega)
                · rw [if_neg hl1]
                  by_cases hl2 : length = 2
                  · rw [if_pos hl2]
                    exact ih data (ofs2 + length) _ (by omega)
                  · rw [if_neg hl2]
                    by_cases hl4 : length = 4
                    · rw [if_pos hl4]
                      exact ih data (ofs2 + length) _ (by omega)
                    · rw [if_neg hl4]
                      by_cases hl8 : length = 8
                      · rw [if_pos hl8]
                        exact ih data (ofs2 + length) _ (by omega)
                      · rw [if_neg hl8]
                        simp
              · rw [if_neg hvt1]
                by_cases hvt2 : tagVType ival = VTString
                · rw [if_pos hvt2]
                  exact ih data (ofs2 + length) _ (by omega)
                · rw [if_neg hvt2]
                  by_cases hvt3 : tagVType ival = VTData
                  · rw [if_pos hvt3]
                    exact ih data (ofs2 + length) _ (by omega)
                  · rw [if_neg hvt3]
                    by_cases hvt4 : tagVType ival = VTMap
                    · rw [if_pos hvt4]
                      have hsub : (sub data ofs2 length).length - 0 < f := by
                        simp [sub]
                        omega
                      have hnest := ih (sub data ofs2 length) 0 [] hsub
                      obtain ⟨r, hr⟩ := Option.isSome_iff_exists.mp hnest
                      cases r with
                      | ok m =>
                        simp only [hr]
                        exact ih data (ofs2 + length) _ (by omega)
                      | err e => simp [hr]
                      | crash => simp [hr]
                    · rw [if_neg hvt4]
                      simp
    · rw [if_neg holt]
      simp

/-! ### Tag algebra -/

theorem tag_eq {k vt : Nat} (hk : k < 2 ^ 32) (hvt : vt < 8) :
    Tag.SetVType (Tag.SetType 0 k) vt = 8 * k + vt := by
  rw [Tag.SetType, Tag.SetVType]
  rw [Nat.mod_eq_of_lt hk]
  simp only [Nat.zero_and, Nat.or_zero]
  have h1 : (k <<< 3) >>> 3 = k := by
    rw [Nat.shiftLeft_eq, Nat.shiftRight_eq_div_pow]
    exact Nat.mul_div_cancel k (by norm_num)
  rw [h1, or_eq_add_of_mod (shiftLeft_mod k 3) (hvt.trans_le (by norm_num)),
    Nat.shiftLeft_eq]
  ring

theorem tag_lt {k vt : Nat} (hk : k < 2 ^ 32) (hvt : vt < 8) :
    8 * k + vt < 2 ^ 35 := by
  omega

theorem tagVType_eq {k vt : Nat} (hvt : vt < 8) : tagVType (8 * k + vt) = vt := by
  rw [tagVType, and7_eq]
  omega

theorem tagType_eq {k vt : Nat} (hk : k < 2 ^ 32) (hvt : vt < 8) :
    tagType (8 * k + vt) = k := by
  rw [tagType, Nat.shiftRight_eq_div_pow]
  have h1 : (8 * k + vt) / 2 ^ 3 = k := by omega
  rw [h1, Nat.mod_eq_of_lt hk]

/-! ### Unfolding lemmas for the marshal walk -/

theorem marshalKeyList_nil (v : Values) : marshalKeyList v [] = .ok [] := by
  rw [marshalKeyList]

theorem marshalKeyList_cons_some {v : Values} {k : Nat} {ks : List Nat} {x : Value}
    (hx : lookupV v k = some x) :
    marshalKeyList v (k :: ks) =
      match marshalValue k x with
      | .error e => .error e
      | .ok bs =>
        match marshalKeyList v ks with
        | .error e => .error e
        | .ok rest => .ok (bs ++ rest) := by
  rw [marshalKeyList.eq_2]
  split
  · rename_i heq
    rw [hx] at heq
    simp at heq
  · rename_i y heq
    rw [hx] at heq
    injection heq with h2
    subst h2
    rfl

theorem marshalKeyList_cons_none {v : Values} {k : Nat} {ks : List Nat}
    (hx : lookupV v k = none) :
    marshalKeyList v (k :: ks) = marshalKeyList v ks := by
  rw [marshalKeyList.eq_2]
  split
  · rfl
  · rename_i y heq
    rw [hx] at heq
    simp at heq

theorem firstUnsupportedKeys_nil (v : Values) : firstUnsupportedKeys v [] = none := by
  rw [firstUnsupportedKeys]

theorem firstUnsupportedKeys_cons_some {v : Values} {k : Nat} {ks : List Nat} {x : Value}
    (hx : lookupV v k = some x) :
    firstUnsupportedKeys v (k :: ks) =
      match firstUnsupportedV x with
      | some u => some u
      | none => firstUnsupportedKeys v ks := by
  rw [firstUnsupportedKeys.eq_2]
  split
  · rename_i heq
    rw [hx] at heq
    simp at heq
  · rename_i y heq
    rw [hx] at heq
    injection heq with h2
    subst h2
    rfl

theorem firstUnsupportedKeys_cons_none {v : Values} {k : Nat} {ks : List Nat}
    (hx : lookupV v k = none) :
    firstUnsupportedKeys v (k :: ks) = firstUnsupportedKeys v ks := by
  rw [firstUnsupportedKeys.eq_2]
  split
  · rfl
  · rename_i y heq
    rw [hx] at heq
    simp at heq

/-! ### Sortedness, lookup and insert helpers -/

theorem sortedKeys_cons {k : Nat} {x : Value} {rest : Values}
    (h : sortedKeys ((k, x) :: rest) = true) :
    sortedKeys rest = true ∧ ∀ p ∈ rest, k < p.1 := by
  induction rest generalizing k x with
  | nil => exact ⟨rfl, by simp⟩
  | cons q rest2 ih =>
    obtain ⟨k2, y⟩ := q
    rw [sortedKeys] at h
    simp only [Bool.and_eq_true, decide_eq_true_eq] at h
    obtain ⟨hk, hrest⟩ := h
    refine ⟨hrest, ?_⟩
    intro p hp
    rcases List.mem_cons.mp hp with rfl | hp2
    · exact hk
    · have := (ih hrest).2 p hp2
      omega

theorem Keys_of_sorted {v : Values} (h : sortedKeys v = true) :
    Values.Keys v = v.map Prod.fst := by
  induction v with
  | nil => rfl
  | cons p rest ih =>
    obtain ⟨k, x⟩ := p
    obtain ⟨hrest, hlt⟩ := sortedKeys_cons h
    have ihr := ih hrest
    simp only [Values.Keys, List.map_cons] at ihr ⊢
    rw [sortKeys, ihr]
    cases rest with
    | nil => rfl
    | cons q rest2 =>
      obtain ⟨k2, y⟩ := q
      have hk2 : k < k2 := hlt (k2, y) (by simp)
      simp only [List.map_cons, insertKey]
      rw [if_pos (Nat.le_of_lt hk2)]

theorem lookupV_cons_self {k : Nat} {x : Value} {rest : Values} :
    lookupV ((k, x) :: rest) k = some x := by
  simp [lookupV]

theorem lookupV_cons_ne {k k2 : Nat} {x : Value} {rest : Values} (h : k2 ≠ k) :
    lookupV ((k2, x) :: rest) k = lookupV rest k := by
  simp [lookupV, h]

theorem lookupV_eq_none_iff {v : Values} {k : Nat} :
    lookupV v k = none ↔ k ∉ v.map Prod.fst := by
  induction v with
  | nil => simp [lookupV]
  | cons p rest ih =>
    obtain ⟨k2, y⟩ := p
    by_cases hk : k2 = k
    · subst hk
      simp [lookupV]
    · rw [lookupV_cons_ne hk]
      simp only [List.map_cons, List.mem_cons]
      rw [ih]
      constructor
      · intro hn hmem
        rcases hmem with h2 | h2
        · exact hk h2.symm
        · exact hn h2
      · intro hn
        exact fun hm => hn (Or.inr hm)

theorem lookupV_mem_of_some {v : Values} {k : Nat} {x : Value}
    (h : lookupV v k = some x) : (k, x) ∈ v := by
  induction v with
  | nil => simp [lookupV] at h
  | cons p rest ih =>
    obtain ⟨k2, y⟩ := p
    by_cases hk : k2 = k
    · subst hk
      rw [lookupV_cons_self] at h
      injection h with h2
      subst h2
      simp
    · rw [lookupV_cons_ne hk] at h
      exact List.mem_cons_of_mem _ (ih h)

theorem insertV_fresh {acc : Values} {k : Nat} {x : Value}
    (h : lookupV acc k = none) : insertV acc k x = acc ++ [(k, x)] := by
  induction acc with
  | nil => rfl
  | cons p rest ih =>
    obtain ⟨k2, y⟩ := p
    by_cases hk : k2 = k
    · subst hk
      rw [lookupV_cons_self] at h
      simp at h
    · rw [lookupV_cons_ne hk] at h
      simp only [insertV, if_neg hk, List.cons_append]
      rw [ih h]

theorem lookupV_append_of_none {acc l : Values} {k : Nat}
    (h : lookupV acc k = none) : lookupV (acc ++ l) k = lookupV l k := by
  induction acc with
  | nil => simp
  | cons p rest ih =>
    obtain ⟨k2, y⟩ := p
    by_cases hk : k2 = k
    · subst hk
      rw [lookupV_cons_self] at h
      simp at h
    · rw [lookupV_cons_ne hk] at h
      simp only [List.cons_append]
      rw [lookupV_cons_ne hk]
      exact ih h

/-! ### Key-walk congruence and byte recomposition -/

theorem marshalKeyList_congr {v w : Values} : ∀ ks : List Nat,
    (∀ k ∈ ks, lookupV v k = lookupV w k) →
    marshalKeyList v ks = marshalKeyList w ks := by
  intro ks
  induction ks with
  | nil =>
    intro _
    rw [marshalKeyList_nil, marshalKeyList_nil]
  | cons k ks ih =>
    intro hagr
    have hk := hagr k (by simp)
    have hrest := fun k2 h2 => hagr k2 (List.mem_cons_of_mem _ h2)
    cases hw : lookupV w k with
    | none =>
      rw [hw] at hk
      rw [marshalKeyList_cons_none hk, marshalKeyList_cons_none hw, ih hrest]
    | some x =>
      rw [hw] at hk
      rw [marshalKeyList_cons_some hk, marshalKeyList_cons_some hw, ih hrest]

theorem marshalIntLoop_length_pos (v i : Nat) : 0 < (marshalIntLoop v i).length := by
  cases i with
  | zero => simp [marshalIntLoop]
  | succ j => simp [marshalIntLoop]

theorem marshalInt_length_pos (v : Nat) : 0 < (marshalInt v).length := by
  rw [marshalInt]
  exact marshalIntLoop_length_pos v _

theorem boUint16_eq {b0 b1 : Nat} (h0 : b0 < 256) (h1 : b1 < 256) :
    boUint16 b0 b1 = b0 * 2 ^ 8 + b1 := by
  rw [boUint16, Nat.shiftLeft_eq]
  exact or_eq_add_of_mod (k := 8) (by omega) (by omega)

theorem boUint32_eq {b0 b1 b2 b3 : Nat} (h0 : b0 < 256) (h1 : b1 < 256)
    (h2 : b2 < 256) (h3 : b3 < 256) :
    boUint32 b0 b1 b2 b3 = b0 * 2 ^ 24 + b1 * 2 ^ 16 + b2 * 2 ^ 8 + b3 := by
  rw [boUint32]
  simp only [Nat.shiftLeft_eq]
  rw [or_eq_add_of_mod (a := b0 * 2 ^ 24) (b := b1 * 2 ^ 16) (k := 24)
      (by omega) (by omega),
    or_eq_add_of_mod (a := b0 * 2 ^ 24 + b1 * 2 ^ 16) (b := b2 * 2 ^ 8) (k := 16)
      (by omega) (by omega),
    or_eq_add_of_mod (a := b0 * 2 ^ 24 + b1 * 2 ^ 16 + b2 * 2 ^ 8) (b := b3) (k := 8)
      (by omega) (by omega)]

theorem boUint64_eq {b0 b1 b2 b3 b4 b5 b6 b7 : Nat} (h0 : b0 < 256) (h1 : b1 < 256)
    (h2 : b2 < 256) (h3 : b3 < 256) (h4 : b4 < 256) (h5 : b5 < 256)
    (h6 : b6 < 256) (h7 : b7 < 256) :
    boUint64 b0 b1 b2 b3 b4 b5 b6 b7 =
      b0 * 2 ^ 56 + b1 * 2 ^ 48 + b2 * 2 ^ 40 + b3 * 2 ^ 32 +
      b4 * 2 ^ 24 + b5 * 2 ^ 16 + b6 * 2 ^ 8 + b7 := by
  rw [boUint64]
  simp only [Nat.shiftLeft_eq]
  rw [
    or_eq_add_of_mod (a := b0 * 2 ^ 56) (b := b1 * 2 ^ 48) (k := 56)
      (by omega) (by omega),
    or_eq_add_of_mod (a := b0 * 2 ^ 56 + b1 * 2 ^ 48) (b := b2 * 2 ^ 40) (k := 48)
      (by omega) (by omega),
    or_eq_add_of_mod (a := b0 * 2 ^ 56 + b1 * 2 ^ 48 + b2 * 2 ^ 40) (b := b3 * 2 ^ 32) (k := 40)
      (by omega) (by omega),
    or_eq_add_of_mod (a := b0 * 2 ^ 56 + b1 * 2 ^ 48 + b2 * 2 ^ 40 + b3 * 2 ^ 32) (b := b4 * 2 ^ 24) (k := 32)
      (by omega) (by omega),
    or_eq_add_of_mod (a := b0 * 2 ^ 56 + b1 * 2 ^ 48 + b2 * 2 ^ 40 + b3 * 2 ^ 32 + b4 * 2 ^ 24) (b := b5 * 2 ^ 16) (k := 24)
      (by omega) (by omega),
    or_eq_add_of_mod (a := b0 * 2 ^ 56 + b1 * 2 ^ 48 + b2 * 2 ^ 40 + b3 * 2 ^ 32 + b4 * 2 ^ 24 + b5 * 2 ^ 16) (b := b6 * 2 ^ 8) (k := 16)
      (by omega) (by omega),
    or_eq_add_of_mod (a := b0 * 2 ^ 56 + b1 * 2 ^ 48 + b2 * 2 ^ 40 + b3 * 2 ^ 32 + b4 * 2 ^ 24 + b5 * 2 ^ 16 + b6 * 2 ^ 8) (b := b7) (k := 8)
      (by omega) (by omega)]

theorem bo16_put {n : Nat} (h : n < 2 ^ 16) :
    boUint16 ((n >>> 8) % 256) (n % 256) = n := by
  rw [boUint16_eq (by omega) (by omega)]
  simp only [Nat.shiftRight_eq_div_pow]
  omega

theorem bo32_put {n : Nat} (h : n < 2 ^ 32) :
    boUint32 ((n >>> 24) % 256) ((n >>> 16) % 256) ((n >>> 8) % 256) (n % 256) = n := by
  rw [boUint32_eq (by omega) (by omega) (by omega) (by omega)]
  simp only [Nat.shiftRight_eq_div_pow]
  omega

theorem bo64_put {n : Nat} (h : n < 2 ^ 64) :
    boUint64 ((n >>> 56) % 256) ((n >>> 48) % 256) ((n >>> 40) % 256)
      ((n >>> 32) % 256) ((n >>> 24) % 256) ((n >>> 16) % 256)
      ((n >>> 8) % 256) (n % 256) = n := by
  rw [boUint64_eq (by omega) (by omega) (by omega) (by omega) (by omega) (by omega)
    (by omega) (by omega)]
  simp only [Nat.shiftRight_eq_div_pow]
  omega

theorem getElem?_lt {data : List Nat} {i b : Nat} (h : data[i]? = some b) :
    i < data.length := by
  by_contra hge
  push_neg at hge
  rw [List.getElem?_eq_none hge] at h
  simp at h

/-- Decoding one `uint16` record: consumes its bytes and stores the value. -/
theorem step_vUInt16 {f k n : Nat} {data d1 : List Nat} {ofs : Nat} {acc : Values}
    (hk : k < 2 ^ 32) (hn : n < 2 ^ 16)
    (hdrop : data.drop ofs =
      (marshalInt (8 * k + 1) ++ marshalInt 2 ++ putUint16 n) ++ d1) :
    ∃ ofs2, data.drop ofs2 = d1 ∧ ofs + 2 ≤ ofs2 ∧ ofs2 ≤ data.length ∧
      unmarshalF (f + 1) data ofs acc =
        unmarshalF f data ofs2 (insertV acc k (.vUInt16 n)) := by
  have htlt : 8 * k + 1 < 2 ^ 35 := by omega
  have hd0 : data.drop ofs =
      marshalInt (8 * k + 1) ++ (marshalInt 2 ++ (putUint16 n ++ d1)) := by
    simpa [List.append_assoc] using hdrop
  have ht1 := unmarshalInt_marshalInt htlt data _ ofs hd0
  have hd1a := drop_append_elim hd0
  have ht2 := unmarshalInt_marshalInt (show (2 : Nat) < 2 ^ 35 by norm_num) data _ _ hd1a
  have hd2a := drop_append_elim hd1a
  obtain ⟨hb0, hdp1⟩ := drop_cons_elim
    (show data.drop (ofs + (marshalInt (8 * k + 1)).length + (marshalInt 2).length)
        = ((n >>> 8) % 256) :: (n % 256 :: d1) from by simpa [putUint16] using hd2a)
  obtain ⟨hb1, hdp2⟩ := drop_cons_elim hdp1
  refine ⟨ofs + (marshalInt (8 * k + 1)).length + (marshalInt 2).length + 2, ?_, ?_, ?_, ?_⟩
  · have he : ofs + (marshalInt (8 * k + 1)).length + (marshalInt 2).length + 1 + 1
        = ofs + (marshalInt (8 * k + 1)).length + (marshalInt 2).length + 2 := by omega
    rw [← he]
    exact hdp2
  · have := marshalInt_length_pos (8 * k + 1)
    have : (marshalInt 2).length = 1 := rfl
    omega
  · have := getElem?_lt hb1
    omega
  · rw [unmarshalF]
    rw [if_pos (show ofs < data.length from by have := getElem?_lt hb0; omega)]
    simp only [ht1, ht2]
    rw [if_neg (show ¬(ofs + (marshalInt (8 * k + 1)).length + (marshalInt 2).length + 2
        > data.length) from by have := getElem?_lt hb1; omega)]
    rw [tagVType_eq (by norm_num)]
    rw [if_neg (by decide), if_pos (by decide)]
    rw [if_neg (by decide), if_pos (by decide)]
    simp only [List.getD_eq_getElem?_getD, hb0, hb1, Option.getD_some]
    rw [bo16_put hn, tagType_eq hk (by norm_num)]

/-- Decoding one Boolean record. -/
theorem step_vBool {f k : Nat} {b : Bool} {data d1 : List Nat} {ofs : Nat} {acc : Values}
    (hk : k < 2 ^ 32)
    (hdrop : data.drop ofs =
      (marshalInt (8 * k + 0) ++ [1, if b then 1 else 0]) ++ d1) :
    ∃ ofs2, data.drop ofs2 = d1 ∧ ofs + 2 ≤ ofs2 ∧ ofs2 ≤ data.length ∧
      unmarshalF (f + 1) data ofs acc =
        unmarshalF f data ofs2 (insertV acc k (.vBool b)) := by
  have htlt : 8 * k + 0 < 2 ^ 35 := by omega
  have hd0 : data.drop ofs =
      marshalInt (8 * k + 0) ++ (marshalInt 1 ++ ((if b then 1 else 0) :: d1)) := by
    have e : marshalInt 1 = [1] := rfl
    simpa [List.append_assoc, e] using hdrop
  have ht1 := unmarshalInt_marshalInt htlt data _ ofs hd0
  have hd1a := drop_append_elim hd0
  have ht2 := unmarshalInt_marshalInt (show (1 : Nat) < 2 ^ 35 by norm_num) data _ _ hd1a
  have hd2a := drop_append_elim hd1a
  obtain ⟨hb1m, hbm1⟩ := unmarshalInt_bounds ht1
  obtain ⟨hb2m, hbm2⟩ := unmarshalInt_bounds ht2
  obtain ⟨hb0, hdp1⟩ := drop_cons_elim hd2a
  have hrem := drop_rem_length hd2a
  refine ⟨ofs + (marshalInt (8 * k + 0)).length + (marshalInt 1).length + 1,
    ?_, ?_, ?_, ?_⟩
  · exact hdp1
  · have := marshalInt_length_pos (8 * k + 0)
    have e : (marshalInt 1).length = 1 := rfl
    omega
  · simp only [List.length_cons] at hrem
    omega
  · rw [unmarshalF]
    rw [if_pos (show ofs < data.length from by omega)]
    simp only [ht1, ht2]
    rw [if_neg (show ¬(ofs + (marshalInt (8 * k + 0)).length + (marshalInt 1).length + 1
        > data.length) from by simp only [List.length_cons] at hrem; omega)]
    rw [tagVType_eq (by norm_num)]
    rw [if_pos (by decide)]
    simp only [hb0]
    rw [tagType_eq hk (by norm_num)]
    cases b <;> simp

/-- Decoding one `uint8` record. -/
theorem step_vUInt8 {f k n : Nat} {data d1 : List Nat} {ofs : Nat} {acc : Values}
    (hk : k < 2 ^ 32)
    (hdrop : data.drop ofs = (marshalInt (8 * k + 1) ++ [1, n]) ++ d1) :
    ∃ ofs2, data.drop ofs2 = d1 ∧ ofs + 2 ≤ ofs2 ∧ ofs2 ≤ data.length ∧
      unmarshalF (f + 1) data ofs acc =
        unmarshalF f data ofs2 (insertV acc k (.vUInt8 n)) := by
  have htlt : 8 * k + 1 < 2 ^ 35 := by omega
  have hd0 : data.drop ofs =
      marshalInt (8 * k + 1) ++ (marshalInt 1 ++ (n :: d1)) := by
    have e : marshalInt 1 = [1] := rfl
    simpa [List.append_assoc, e] using hdrop
  have ht1 := unmarshalInt_marshalInt htlt data _ ofs hd0
  have hd1a := drop_append_elim hd0
  have ht2 := unmarshalInt_marshalInt (show (1 : Nat) < 2 ^ 35 by norm_num) data _ _ hd1a
  have hd2a := drop_append_elim hd1a
  obtain ⟨hb1m, hbm1⟩ := unmarshalInt_bounds ht1
  obtain ⟨hb2m, hbm2⟩ := unmarshalInt_bounds ht2
  obtain ⟨hb0, hdp1⟩ := drop_cons_elim hd2a
  have hrem := drop_rem_length hd2a
  refine ⟨ofs + (marshalInt (8 * k + 1)).length + (marshalInt 1).length + 1,
    ?_, ?_, ?_, ?_⟩
  · exact hdp1
  · have := marshalInt_length_pos (8 * k + 1)
    have e : (marshalInt 1).length = 1 := rfl
    omega
  · simp only [List.length_cons] at hrem
    omega
  · rw [unmarshalF]
    rw [if_pos (show ofs < data.length from by omega)]
    simp only [ht1, ht2]
    rw [if_neg (show ¬(ofs + (marshalInt (8 * k + 1)).length + (marshalInt 1).length + 1
        > data.length) from by simp only [List.length_cons] at hrem; omega)]
    rw [tagVType_eq (by norm_num)]
    rw [if_neg (by decide), if_pos (by decide)]
    rw [if_pos (by decide)]
    simp only [List.getD_eq_getElem?_getD, hb0, Option.getD_some]
    rw [tagType_eq hk (by norm_num)]

/-- Decoding one `uint32` record. -/
theorem step_vUInt32 {f k n : Nat} {data d1 : List Nat} {ofs : Nat} {acc : Values}
    (hk : k < 2 ^ 32) (hn : n < 2 ^ 32)
    (hdrop : data.drop ofs =
      (marshalInt (8 * k + 1) ++ marshalInt 4 ++ putUint32 n) ++ d1) :
    ∃ ofs2, data.drop ofs2 = d1 ∧ ofs + 2 ≤ ofs2 ∧ ofs2 ≤ data.length ∧
      unmarshalF (f + 1) data ofs acc =
        unmarshalF f data ofs2 (insertV acc k (.vUInt32 n)) := by
  have htlt : 8 * k + 1 < 2 ^ 35 := by omega
  have hd0 : data.drop ofs =
      marshalInt (8 * k + 1) ++ (marshalInt 4 ++ (putUint32 n ++ d1)) := by
    simpa [List.append_assoc] using hdrop
  have ht1 := unmarshalInt_marshalInt htlt data _ ofs hd0
  have hd1a := drop_append_elim hd0
  have ht2 := unmarshalInt_marshalInt (show (4 : Nat) < 2 ^ 35 by norm_num) data _ _ hd1a
  have hd2a := drop_append_elim hd1a
  obtain ⟨hb1m, hbm1⟩ := unmarshalInt_bounds ht1
  obtain ⟨hb2m, hbm2⟩ := unmarshalInt_bounds ht2
  have hrem := drop_rem_length hd2a
  obtain ⟨hb0, hdp1⟩ := drop_cons_elim
    (show data.drop (ofs + (marshalInt (8 * k + 1)).length + (marshalInt 4).length)
        = ((n >>> 24) % 256) :: (((n >>> 16) % 256) :: (((n >>> 8) % 256) ::
          (n % 256 :: d1))) from by simpa [putUint32] using hd2a)
  obtain ⟨hb1, hdp2⟩ := drop_cons_elim hdp1
  obtain ⟨hb2, hdp3⟩ := drop_cons_elim hdp2
  obtain ⟨hb3, hdp4⟩ := drop_cons_elim hdp3
  refine ⟨ofs + (marshalInt (8 * k + 1)).length + (marshalInt 4).length + 4,
    ?_, ?_, ?_, ?_⟩
  · have he : ofs + (marshalInt (8 * k + 1)).length + (marshalInt 4).length + 1 + 1 + 1 + 1
        = ofs + (marshalInt (8 * k + 1)).length + (marshalInt 4).length + 4 := by omega
    rw [← he]
    exact hdp4
  · have := marshalInt_length_pos (8 * k + 1)
    have e : (marshalInt 4).length = 1 := rfl
    omega
  · simp only [putUint32, List.length_append, List.length_cons, List.length_nil] at hrem
    omega
  · rw [unmarshalF]
    rw [if_pos (show ofs < data.length from by omega)]
    simp only [ht1, ht2]
    rw [if_neg (show ¬(ofs + (marshalInt (8 * k + 1)).length + (marshalInt 4).length + 4
        > data.length) from by
      simp only [putUint32, List.length_append, List.length_cons, List.length_nil] at hrem
      omega)]
    rw [tagVType_eq (by norm_num)]
    rw [if_neg (by decide), if_pos (by decide)]
    rw [if_neg (by decide), if_neg (by decide), if_pos (by decide)]
    simp only [List.getD_eq_getElem?_getD, hb0, hb1, hb2, hb3, Option.getD_some]
    rw [bo32_put hn, tagType_eq hk (by norm_num)]

/-- Decoding one `uint64` record. -/
theorem step_vUInt64 {f k n : Nat} {data d1 : List Nat} {ofs : Nat} {acc : Values}
    (hk : k < 2 ^ 32) (hn : n < 2 ^ 64)
    (hdrop : data.drop ofs =
      (marshalInt (8 * k + 1) ++ marshalInt 8 ++ putUint64 n) ++ d1) :
    ∃ ofs2, data.drop ofs2 = d1 ∧ ofs + 2 ≤ ofs2 ∧ ofs2 ≤ data.length ∧
      unmarshalF (f + 1) data ofs acc =
        unmarshalF f data ofs2 (insertV acc k (.vUInt64 n)) := by
  have htlt : 8 * k + 1 < 2 ^ 35 := by omega
  have hd0 : data.drop ofs =
      marshalInt (8 * k + 1) ++ (marshalInt 8 ++ (putUint64 n ++ d1)) := by
    simpa [List.append_assoc] using hdrop
  have ht1 := unmarshalInt_marshalInt htlt data _ ofs hd0
  have hd1a := drop_append_elim hd0
  have ht2 := unmarshalInt_marshalInt (show (8 : Nat) < 2 ^ 35 by norm_num) data _ _ hd1a
  have hd2a := drop_append_elim hd1a
  obtain ⟨hb1m, hbm1⟩ := unmarshalInt_bounds ht1
  obtain ⟨hb2m, hbm2⟩ := unmarshalInt_bounds ht2
  have hrem := drop_rem_length hd2a
  obtain ⟨hb0, hdp1⟩ := drop_cons_elim
    (show data.drop (ofs + (marshalInt (8 * k + 1)).length + (marshalInt 8).length)
        = ((n >>> 56) % 256) :: (((n >>> 48) % 256) :: (((n >>> 40) % 256) ::
          (((n >>> 32) % 256) :: (((n >>> 24) % 256) :: (((n >>> 16) % 256) ::
          (((n >>> 8) % 256) :: (n % 256 :: d1))))))) from by
      simpa [putUint64] using hd2a)
  obtain ⟨hb1, hdp2⟩ := drop_cons_elim hdp1
  obtain ⟨hb2, hdp3⟩ := drop_cons_elim hdp2
  obtain ⟨hb3, hdp4⟩ := drop_cons_elim hdp3
  obtain ⟨hb4, hdp5⟩ := drop_cons_elim hdp4
  obtain ⟨hb5, hdp6⟩ := drop_cons_elim hdp5
  obtain ⟨hb6, hdp7⟩ := drop_cons_elim hdp6
  obtain ⟨hb7, hdp8⟩ := drop_cons_elim hdp7
  refine ⟨ofs + (marshalInt (8 * k + 1)).length + (marshalInt 8).length + 8,
    ?_, ?_, ?_, ?_⟩
  · have he : ofs + (marshalInt (8 * k + 1)).length + (marshalInt 8).length
        + 1 + 1 + 1 + 1 + 1 + 1 + 1 + 1
        = ofs + (marshalInt (8 * k + 1)).length + (marshalInt 8).length + 8 := by omega
    rw [← he]
    exact hdp8
  · have := marshalInt_length_pos (8 * k + 1)
    have e : (marshalInt 8).length = 1 := rfl
    omega
  · simp only [putUint64, List.length_append, List.length_cons, List.length_nil] at hrem
    omega
  · rw [unmarshalF]
    rw [if_pos (show ofs < data.length from by omega)]
    simp only [ht1, ht2]
    rw [if_neg (show ¬(ofs + (marshalInt (8 * k + 1)).length + (marshalInt 8).length + 8
        > data.length) from by
      simp only [putUint64, List.length_append, List.length_cons, List.length_nil] at hrem
      omega)]
    rw [tagVType_eq (by norm_num)]
    rw [if_neg (by decide), if_pos (by decide)]
    rw [if_neg (by decide), if_neg (by decide), if_neg (by decide), if_pos (by decide)]
    simp only [List.getD_eq_getElem?_getD, hb0, hb1, hb2, hb3, hb4, hb5, hb6, hb7,
      Option.getD_some]
    rw [bo64_put hn, tagType_eq hk (by norm_num)]

/-- Decoding one text record. -/
theorem step_vString {f k : Nat} {s : List Nat} {data d1 : List Nat} {ofs : Nat}
    {acc : Values} (hk : k < 2 ^ 32) (hs : s.length < 2 ^ 35)
    (hdrop : data.drop ofs =
      (marshalInt (8 * k + 2) ++ marshalInt s.length ++ s) ++ d1) :
    ∃ ofs2, data.drop ofs2 = d1 ∧ ofs + 2 ≤ ofs2 ∧ ofs2 ≤ data.length ∧
      unmarshalF (f + 1) data ofs acc =
        unmarshalF f data ofs2 (insertV acc k (.vString s)) := by
  have htlt : 8 * k + 2 < 2 ^ 35 := by omega
  have hd0 : data.drop ofs =
      marshalInt (8 * k + 2) ++ (marshalInt s.length ++ (s ++ d1)) := by
    simpa [List.append_assoc] using hdrop
  have ht1 := unmarshalInt_marshalInt htlt data _ ofs hd0
  have hd1a := drop_append_elim hd0
  have ht2 := unmarshalInt_marshalInt hs data _ _ hd1a
  have hd2a := drop_append_elim hd1a
  obtain ⟨hb1m, hbm1⟩ := unmarshalInt_bounds ht1
  obtain ⟨hb2m, hbm2⟩ := unmarshalInt_bounds ht2
  have hrem := drop_rem_length hd2a
  have hd3a := drop_append_elim hd2a
  have hsub : sub data
      (ofs + (marshalInt (8 * k + 2)).length + (marshalInt s.length).length) s.length
      = s := by
    rw [sub, hd2a]
    exact List.take_left s d1
  refine ⟨ofs + (marshalInt (8 * k + 2)).length + (marshalInt s.length).length + s.length,
    ?_, ?_, ?_, ?_⟩
  · exact hd3a
  · have := marshalInt_length_pos (8 * k + 2)
    have := marshalInt_length_pos s.length
    omega
  · simp only [List.length_append] at hrem
    omega
  · rw [unmarshalF]
    rw [if_pos (show ofs < data.length from by omega)]
    simp only [ht1, ht2]
    rw [if_neg (show ¬(ofs + (marshalInt (8 * k + 2)).length +
        (marshalInt s.length).length + s.length > data.length) from by
      simp only [List.length_append] at hrem
      omega)]
    rw [tagVType_eq (by norm_num)]
    rw [if_neg (by decide), if_neg (by decide), if_pos (by decide)]
    rw [hsub, tagType_eq hk (by norm_num)]

/-- Decoding one raw-bytes record. -/
theorem step_vData {f k : Nat} {bs : List Nat} {data d1 : List Nat} {ofs : Nat}
    {acc : Values} (hk : k < 2 ^ 32) (hs : bs.length < 2 ^ 35)
    (hdrop : data.drop ofs =
      (marshalInt (8 * k + 3) ++ marshalInt bs.length ++ bs) ++ d1) :
    ∃ ofs2, data.drop ofs2 = d1 ∧ ofs + 2 ≤ ofs2 ∧ ofs2 ≤ data.length ∧
      unmarshalF (f + 1) data ofs acc =
        unmarshalF f data ofs2 (insertV acc k (.vData bs)) := by
  have htlt : 8 * k + 3 < 2 ^ 35 := by omega
  have hd0 : data.drop ofs =
      marshalInt (8 * k + 3) ++ (marshalInt bs.length ++ (bs ++ d1)) := by
    simpa [List.append_assoc] using hdrop
  have ht1 := unmarshalInt_marshalInt htlt data _ ofs hd0
  have hd1a := drop_append_elim hd0
  have ht2 := unmarshalInt_marshalInt hs data _ _ hd1a
  have hd2a := drop_append_elim hd1a
  obtain ⟨hb1m, hbm1⟩ := unmarshalInt_bounds ht1
  obtain ⟨hb2m, hbm2⟩ := unmarshalInt_bounds ht2
  have hrem := drop_rem_length hd2a
  have hd3a := drop_append_elim hd2a
  have hsub : sub data
      (ofs + (marshalInt (8 * k + 3)).length + (marshalInt bs.length).length) bs.length
      = bs := by
    rw [sub, hd2a]
    exact List.take_left bs d1
  refine ⟨ofs + (marshalInt (8 * k + 3)).length + (marshalInt bs.length).length + bs.length,
    ?_, ?_, ?_, ?_⟩
  · exact hd3a
  · have := marshalInt_length_pos (8 * k + 3)
    have := marshalInt_length_pos bs.length
    omega
  · simp only [List.length_append] at hrem
    omega
  · rw [unmarshalF]
    rw [if_pos (show ofs < data.length from by omega)]
    simp only [ht1, ht2]
    rw [if_neg (show ¬(ofs + (marshalInt (8 * k + 3)).length +
        (marshalInt bs.length).length + bs.length > data.length) from by
      simp only [List.length_append] at hrem
      omega)]
    rw [tagVType_eq (by norm_num)]
    rw [if_neg (by decide), if_neg (by decide), if_neg (by decide), if_pos (by decide)]
    rw [hsub, tagType_eq hk (by norm_num)]

/-- Decoding one nested-map record, given that the recursive decode of the
payload slice yields `m`. -/
theorem step_vMap {f k : Nat} {m : Values} {data dm d1 : List Nat} {ofs : Nat}
    {acc : Values} (hk : k < 2 ^ 32) (hdm : dm.length < 2 ^ 35)
    (hnest : unmarshalF f dm 0 [] = some (.ok m))
    (hdrop : data.drop ofs =
      (marshalInt (8 * k + 4) ++ marshalInt dm.length ++ dm) ++ d1) :
    ∃ ofs2, data.drop ofs2 = d1 ∧ ofs + 2 ≤ ofs2 ∧ ofs2 ≤ data.length ∧
      unmarshalF (f + 1) data ofs acc =
        unmarshalF f data ofs2 (insertV acc k (.vMap m)) := by
  have htlt : 8 * k + 4 < 2 ^ 35 := by omega
  have hd0 : data.drop ofs =
      marshalInt (8 * k + 4) ++ (marshalInt dm.length ++ (dm ++ d1)) := by
    simpa [List.append_assoc] using hdrop
  have ht1 := unmarshalInt_marshalInt htlt data _ ofs hd0
  have hd1a := drop_append_elim hd0
  have ht2 := unmarshalInt_marshalInt hdm data _ _ hd1a
  have hd2a := drop_append_elim hd1a
  obtain ⟨hb1m, hbm1⟩ := unmarshalInt_bounds ht1
  obtain ⟨hb2m, hbm2⟩ := unmarshalInt_bounds ht2
  have hrem := drop_rem_length hd2a
  have hd3a := drop_append_elim hd2a
  have hsub : sub data
      (ofs + (marshalInt (8 * k + 4)).length + (marshalInt dm.length).length) dm.length
      = dm := by
    rw [sub, hd2a]
    exact List.take_left dm d1
  refine ⟨ofs + (marshalInt (8 * k + 4)).length + (marshalInt dm.length).length + dm.length,
    ?_, ?_, ?_, ?_⟩
  · exact hd3a
  · have := marshalInt_length_pos (8 * k + 4)
    have := marshalInt_length_pos dm.length
    omega
  · simp only [List.length_append] at hrem
    omega
  · rw [unmarshalF]
    rw [if_pos (show ofs < data.length from by omega)]
    simp only [ht1, ht2]
    rw [if_neg (show ¬(ofs + (marshalInt (8 * k + 4)).length +
        (marshalInt dm.length).length + dm.length > data.length) from by
      simp only [List.length_append] at hrem
      omega)]
    rw [tagVType_eq (by norm_num)]
    rw [if_neg (by decide), if_neg (by decide), if_neg (by decide), if_neg (by decide),
      if_pos (by decide)]
    simp only [hsub, hnest]
    rw [tagType_eq hk (by norm_num)]

/-- Entering the rest of the record list after one decoded field. -/
theorem rec_into_rest {f : Nat} {data d1 : List Nat} {ofs2 : Nat} {acc : Values}
    {k0 : Nat} {x0 : Value} {rest : Values}
    (hdec1 : ∀ fuel data ofs acc, data.drop ofs = d1 → data.length - ofs < fuel →
        (∀ p ∈ rest, lookupV acc p.1 = none) →
        unmarshalF fuel data ofs acc = some (.ok (acc ++ rest)))
    (hdrop2 : data.drop ofs2 = d1) (hfu : data.length - ofs2 < f)
    (hfr0 : lookupV acc k0 = none)
    (hlt : ∀ p ∈ rest, k0 < p.1)
    (hfresh : ∀ p ∈ rest, lookupV acc p.1 = none) :
    unmarshalF f data ofs2 (insertV acc k0 x0) = some (.ok (acc ++ (k0, x0) :: rest)) := by
  rw [insertV_fresh hfr0]
  rw [hdec1 f data ofs2 (acc ++ [(k0, x0)]) hdrop2 hfu ?fresh2]
  · simp
  case fresh2 =>
    intro p hp
    rw [lookupV_append_of_none (hfresh p hp)]
    have hne : k0 ≠ p.1 := by
      have := hlt p hp
      omega
    simp [lookupV, hne]

/-- Round trip on the canonical (key-sorted) representation: a well-formed
mapping marshals successfully, the output length is `encLen`, and decoding
the output (as the remainder of any buffer) appends exactly the original
fields to the accumulator. -/
theorem roundtrip_aux : ∀ (N : Nat) (v : Values), sizeOf v ≤ N →
    sortedKeys v = true → ValuesWF v = true →
    ∃ d, Values.Marshal v = .ok d ∧ d.length = encLen v ∧
      ∀ fuel data ofs acc, data.drop ofs = d → data.length - ofs < fuel →
        (∀ p ∈ v, lookupV acc p.1 = none) →
        unmarshalF fuel data ofs acc = some (.ok (acc ++ v)) := by
  intro N
  induction N with
  | zero =>
    intro v hN
    exfalso
    cases v with
    | nil => simp at hN
    | cons p rest => simp at hN
  | succ N ih =>
    intro v hN hsor hwf
    cases v with
    | nil =>
      refine ⟨[], by rw [Values.Marshal]; exact marshalKeyList_nil [], rfl, ?_⟩
      intro fuel data ofs acc hdrop hfuel _
      have hle : data.length ≤ ofs := List.drop_eq_nil_iff.mp hdrop
      cases fuel with
      | zero => omega
      | succ f =>
        rw [unmarshalF, if_neg (by omega)]
        simp
    | cons p rest =>
      obtain ⟨k0, x0⟩ := p
      obtain ⟨hsrest, hlt⟩ := sortedKeys_cons hsor
      have hwf2 := hwf
      rw [ValuesWF] at hwf2
      simp only [Bool.and_eq_true, decide_eq_true_eq] at hwf2
      obtain ⟨⟨hk0, hvx0⟩, hwfrest⟩ := hwf2
      have hsize : sizeOf ((k0, x0) :: rest) ≤ N + 1 := hN
      simp only [List.cons.sizeOf_spec, Prod.mk.sizeOf_spec] at hsize
      have hszrest : sizeOf rest ≤ N := by omega
      obtain ⟨d1, hm1, hl1, hdec1⟩ := ih rest hszrest hsrest hwfrest
      have hkeys := Keys_of_sorted hsor
      have hlk : lookupV ((k0, x0) :: rest) k0 = some x0 := lookupV_cons_self
      have hagr : ∀ k ∈ rest.map Prod.fst,
          lookupV ((k0, x0) :: rest) k = lookupV rest k := by
        intro k hkmem
        obtain ⟨p2, hp2, hfst⟩ := List.mem_map.mp hkmem
        have hne : k0 ≠ k := by
          have := hlt p2 hp2
          omega
        exact lookupV_cons_ne hne
      have hmrest : marshalKeyList rest (rest.map Prod.fst) = .ok d1 := by
        have h := hm1
        rw [Values.Marshal, Keys_of_sorted hsrest] at h
        exact h
      have htail2 : marshalKeyList ((k0, x0) :: rest) (rest.map Prod.fst) = .ok d1 :=
        (marshalKeyList_congr _ hagr).trans hmrest
      cases x0 with
      | vBool b =>
        have htag : Tag.SetVType (Tag.SetType 0 k0) VTBool = 8 * k0 + 0 :=
          tag_eq hk0 (by decide)
        have hmv : marshalValue k0 (.vBool b) =
            .ok (marshalInt (8 * k0 + 0) ++ [1, if b then 1 else 0]) := by
          rw [marshalValue, htag]
        have hmar : Values.Marshal ((k0, .vBool b) :: rest) =
            .ok ((marshalInt (8 * k0 + 0) ++ [1, if b then 1 else 0]) ++ d1) := by
          rw [Values.Marshal, hkeys]
          simp only [List.map_cons]
          rw [marshalKeyList_cons_some hlk]
          simp only [hmv, htail2]
        refine ⟨_, hmar, ?_, ?_⟩
        · simp only [encLen, payloadLen, vtypeOf]
          rw [htag, ← hl1]
          simp [List.length_append]
          have e1 : (marshalInt 1).length = 1 := rfl
          have e2 : (marshalInt 2).length = 1 := rfl
          have e4 : (marshalInt 4).length = 1 := rfl
          have e8 : (marshalInt 8).length = 1 := rfl
          omega
        · intro fuel data ofs acc hdrop hfuel hfresh
          cases fuel with
          | zero => omega
          | succ f =>
            obtain ⟨ofs2, hdrop2, hge2, hle2, hstep⟩ := step_vBool hk0 hdrop
            rw [hstep]
            exact rec_into_rest hdec1 hdrop2 (by omega)
              (hfresh (k0, .vBool b) (by simp)) hlt
              (fun p hp => hfresh p (List.mem_cons_of_mem _ hp))
      | vUInt8 n =>
        have htag : Tag.SetVType (Tag.SetType 0 k0) VTInt = 8 * k0 + 1 :=
          tag_eq hk0 (by decide)
        have hmv : marshalValue k0 (.vUInt8 n) =
            .ok (marshalInt (8 * k0 + 1) ++ [1, n]) := by
          rw [marshalValue, htag]
        have hmar : Values.Marshal ((k0, .vUInt8 n) :: rest) =
            .ok ((marshalInt (8 * k0 + 1) ++ [1, n]) ++ d1) := by
          rw [Values.Marshal, hkeys]
          simp only [List.map_cons]
          rw [marshalKeyList_cons_some hlk]
          simp only [hmv, htail2]
        refine ⟨_, hmar, ?_, ?_⟩
        · simp only [encLen, payloadLen, vtypeOf]
          rw [htag, ← hl1]
          simp [List.length_append]
          have e1 : (marshalInt 1).length = 1 := rfl
          have e2 : (marshalInt 2).length = 1 := rfl
          have e4 : (marshalInt 4).length = 1 := rfl
          have e8 : (marshalInt 8).length = 1 := rfl
          omega
        · intro fuel data ofs acc hdrop hfuel hfresh
          cases fuel with
          | zero => omega
          | succ f =>
            obtain ⟨ofs2, hdrop2, hge2, hle2, hstep⟩ := step_vUInt8 hk0 hdrop
            rw [hstep]
            exact rec_into_rest hdec1 hdrop2 (by omega)
              (hfresh (k0, .vUInt8 n) (by simp)) hlt
              (fun p hp => hfresh p (List.mem_cons_of_mem _ hp))
      | vUInt16 n =>
        rw [ValueWF] at hvx0
        simp only [decide_eq_true_eq] at hvx0
        have htag : Tag.SetVType (Tag.SetType 0 k0) VTInt = 8 * k0 + 1 :=
          tag_eq hk0 (by decide)
        have hmv : marshalValue k0 (.vUInt16 n) =
            .ok (marshalInt (8 * k0 + 1) ++ marshalInt 2 ++ putUint16 n) := by
          rw [marshalValue, htag]
        have hmar : Values.Marshal ((k0, .vUInt16 n) :: rest) =
            .ok ((marshalInt (8 * k0 + 1) ++ marshalInt 2 ++ putUint16 n) ++ d1) := by
          rw [Values.Marshal, hkeys]
          simp only [List.map_cons]
          rw [marshalKeyList_cons_some hlk]
          simp only [hmv, htail2]
        refine ⟨_, hmar, ?_, ?_⟩
        · simp only [encLen, payloadLen, vtypeOf]
          rw [htag, ← hl1]
          simp [List.length_append, putUint16]
          have e1 : (marshalInt 1).length = 1 := rfl
          have e2 : (marshalInt 2).length = 1 := rfl
          have e4 : (marshalInt 4).length = 1 := rfl
          have e8 : (marshalInt 8).length = 1 := rfl
          omega
        · intro fuel data ofs acc hdrop hfuel hfresh
          cases fuel with
          | zero => omega
          | succ f =>
            obtain ⟨ofs2, hdrop2, hge2, hle2, hstep⟩ := step_vUInt16 hk0 hvx0 hdrop
            rw [hstep]
            exact rec_into_rest hdec1 hdrop2 (by omega)
              (hfresh (k0, .vUInt16 n) (by simp)) hlt
              (fun p hp => hfresh p (List.mem_cons_of_mem _ hp))
      | vUInt32 n =>
        rw [ValueWF] at hvx0
        simp only [decide_eq_true_eq] at hvx0
        have htag : Tag.SetVType (Tag.SetType 0 k0) VTInt = 8 * k0 + 1 :=
          tag_eq hk0 (by decide)
        have hmv : marshalValue k0 (.vUInt32 n) =
            .ok (marshalInt (8 * k0 + 1) ++ marshalInt 4 ++ putUint32 n) := by
          rw [marshalValue, htag]
        have hmar : Values.Marshal ((k0, .vUInt32 n) :: rest) =
            .ok ((marshalInt (8 * k0 + 1) ++ marshalInt 4 ++ putUint32 n) ++ d1) := by
          rw [Values.Marshal, hkeys]
          simp only [List.map_cons]
          rw [marshalKeyList_cons_some hlk]
          simp only [hmv, htail2]
        refine ⟨_, hmar, ?_, ?_⟩
        · simp only [encLen, payloadLen, vtypeOf]
          rw [htag, ← hl1]
          simp [List.length_append, putUint32]
          have e1 : (marshalInt 1).length = 1 := rfl
          have e2 : (marshalInt 2).length = 1 := rfl
          have e4 : (marshalInt 4).length = 1 := rfl
          have e8 : (marshalInt 8).length = 1 := rfl
          omega
        · intro fuel data ofs acc hdrop hfuel hfresh
          cases fuel with
          | zero => omega
          | succ f =>
            obtain ⟨ofs2, hdrop2, hge2, hle2, hstep⟩ := step_vUInt32 hk0 hvx0 hdrop
            rw [hstep]
            exact rec_into_rest hdec1 hdrop2 (by omega)
              (hfresh (k0, .vUInt32 n) (by simp)) hlt
              (fun p hp => hfresh p (List.mem_cons_of_mem _ hp))
      | vUInt64 n =>
        rw [ValueWF] at hvx0
        simp only [decide_eq_true_eq] at hvx0
        have htag : Tag.SetVType (Tag.SetType 0 k0) VTInt = 8 * k0 + 1 :=
          tag_eq hk0 (by decide)
        have hmv : marshalValue k0 (.vUInt64 n) =
            .ok (marshalInt (8 * k0 + 1) ++ marshalInt 8 ++ putUint64 n) := by
          rw [marshalValue, htag]
        have hmar : Values.Marshal ((k0, .vUInt64 n) :: rest) =
            .ok ((marshalInt (8 * k0 + 1) ++ marshalInt 8 ++ putUint64 n) ++ d1) := by
          rw [Values.Marshal, hkeys]
          simp only [List.map_cons]
          rw [marshalKeyList_cons_some hlk]
          simp only [hmv, htail2]
        refine ⟨_, hmar, ?_, ?_⟩
        · simp only [encLen, payloadLen, vtypeOf]
          rw [htag, ← hl1]
          simp [List.length_append, putUint64]
          have e1 : (marshalInt 1).length = 1 := rfl
          have e2 : (marshalInt 2).length = 1 := rfl
          have e4 : (marshalInt 4).length = 1 := rfl
          have e8 : (marshalInt 8).length = 1 := rfl
          omega
        · intro fuel data ofs acc hdrop hfuel hfresh
          cases fuel with
          | zero => omega
          | succ f =>
            obtain ⟨ofs2, hdrop2, hge2, hle2, hstep⟩ := step_vUInt64 hk0 hvx0 hdrop
            rw [hstep]
            exact rec_into_rest hdec1 hdrop2 (by omega)
              (hfresh (k0, .vUInt64 n) (by simp)) hlt
              (fun p hp => hfresh p (List.mem_cons_of_mem _ hp))
      | vString s =>
        rw [ValueWF] at hvx0
        simp only [Bool.and_eq_true, decide_eq_true_eq] at hvx0
        have htag : Tag.SetVType (Tag.SetType 0 k0) VTString = 8 * k0 + 2 :=
          tag_eq hk0 (by decide)
        have hmv : marshalValue k0 (.vString s) =
            .ok (marshalInt (8 * k0 + 2) ++ marshalInt s.length ++ s) := by
          rw [marshalValue, htag]
        have hmar : Values.Marshal ((k0, .vString s) :: rest) =
            .ok ((marshalInt (8 * k0 + 2) ++ marshalInt s.length ++ s) ++ d1) := by
          rw [Values.Marshal, hkeys]
          simp only [List.map_cons]
          rw [marshalKeyList_cons_some hlk]
          simp only [hmv, htail2]
        refine ⟨_, hmar, ?_, ?_⟩
        · simp only [encLen, payloadLen, vtypeOf]
          rw [htag, ← hl1]
          simp [List.length_append]
          have e1 : (marshalInt 1).length = 1 := rfl
          have e2 : (marshalInt 2).length = 1 := rfl
          have e4 : (marshalInt 4).length = 1 := rfl
          have e8 : (marshalInt 8).length = 1 := rfl
          omega
        · intro fuel data ofs acc hdrop hfuel hfresh
          cases fuel with
          | zero => omega
          | succ f =>
            obtain ⟨ofs2, hdrop2, hge2, hle2, hstep⟩ := step_vString hk0 hvx0.1 hdrop
            rw [hstep]
            exact rec_into_rest hdec1 hdrop2 (by omega)
              (hfresh (k0, .vString s) (by simp)) hlt
              (fun p hp => hfresh p (List.mem_cons_of_mem _ hp))
      | vData bs =>
        rw [ValueWF] at hvx0
        simp only [Bool.and_eq_true, decide_eq_true_eq] at hvx0
        have htag : Tag.SetVType (Tag.SetType 0 k0) VTData = 8 * k0 + 3 :=
          tag_eq hk0 (by decide)
        have hmv : marshalValue k0 (.vData bs) =
            .ok (marshalInt (8 * k0 + 3) ++ marshalInt bs.length ++ bs) := by
          rw [marshalValue, htag]
        have hmar : Values.Marshal ((k0, .vData bs) :: rest) =
            .ok ((marshalInt (8 * k0 + 3) ++ marshalInt bs.length ++ bs) ++ d1) := by
          rw [Values.Marshal, hkeys]
          simp only [List.map_cons]
          rw [marshalKeyList_cons_some hlk]
          simp only [hmv, htail2]
        refine ⟨_, hmar, ?_, ?_⟩
        · simp only [encLen, payloadLen, vtypeOf]
          rw [htag, ← hl1]
          simp [List.length_append]
          have e1 : (marshalInt 1).length = 1 := rfl
          have e2 : (marshalInt 2).length = 1 := rfl
          have e4 : (marshalInt 4).length = 1 := rfl
          have e8 : (marshalInt 8).length = 1 := rfl
          omega
        · intro fuel data ofs acc hdrop hfuel hfresh
          cases fuel with
          | zero => omega
          | succ f =>
            obtain ⟨ofs2, hdrop2, hge2, hle2, hstep⟩ := step_vData hk0 hvx0.1 hdrop
            rw [hstep]
            exact rec_into_rest hdec1 hdrop2 (by omega)
              (hfresh (k0, .vData bs) (by simp)) hlt
              (fun p hp => hfresh p (List.mem_cons_of_mem _ hp))
      | vMap m =>
        rw [ValueWF] at hvx0
        simp only [Bool.and_eq_true, decide_eq_true_eq] at hvx0
        obtain ⟨⟨hsm, hwm⟩, hencm⟩ := hvx0
        have hszm : sizeOf m ≤ N := by
          simp only [Value.vMap.sizeOf_spec] at hsize
          omega
        obtain ⟨dm, hmm, hlm, hdecm⟩ := ih m hszm hsm hwm
        have hdm35 : dm.length < 2 ^ 35 := by rw [hlm]; exact hencm
        have hmmList : marshalKeyList m (Values.Keys m) = .ok dm := hmm
        have htag : Tag.SetVType (Tag.SetType 0 k0) VTMap = 8 * k0 + 4 :=
          tag_eq hk0 (by decide)
        have hmv : marshalValue k0 (.vMap m) =
            .ok (marshalInt (8 * k0 + 4) ++ marshalInt dm.length ++ dm) := by
          rw [marshalValue, htag]
          simp only [hmmList]
        have hmar : Values.Marshal ((k0, .vMap m) :: rest) =
            .ok ((marshalInt (8 * k0 + 4) ++ marshalInt dm.length ++ dm) ++ d1) := by
          rw [Values.Marshal, hkeys]
          simp only [List.map_cons]
          rw [marshalKeyList_cons_some hlk]
          simp only [hmv, htail2]
        refine ⟨_, hmar, ?_, ?_⟩
        · simp only [encLen, payloadLen, vtypeOf]
          rw [htag, ← hl1, ← hlm]
          simp [List.length_append]
          have e1 : (marshalInt 1).length = 1 := rfl
          have e2 : (marshalInt 2).length = 1 := rfl
          have e4 : (marshalInt 4).length = 1 := rfl
          have e8 : (marshalInt 8).length = 1 := rfl
          omega
        · intro fuel data ofs acc hdrop hfuel hfresh
          cases fuel with
          | zero => omega
          | succ f =>
            have hrem := drop_rem_length hdrop
            simp only [List.length_append] at hrem
            have htl := marshalInt_length_pos (8 * k0 + 4)
            have hll := marshalInt_length_pos dm.length
            have hnest : unmarshalF f dm 0 [] = some (.ok m) := by
              have h := hdecm f dm 0 [] (by simp) (by omega) (fun p _ => rfl)
              simpa using h
            obtain ⟨ofs2, hdrop2, hge2, hle2, hstep⟩ := step_vMap hk0 hdm35 hnest hdrop
            rw [hstep]
            exact rec_into_rest hdec1 hdrop2 (by omega)
              (hfresh (k0, .vMap m) (by simp)) hlt
              (fun p hp => hfresh p (List.mem_cons_of_mem _ hp))
      | vUnsupported i =>
        exfalso
        rw [ValueWF] at hvx0
        simp at hvx0

/-! ### Truncation and EOF helpers -/

theorem unmarshal_header_truncated {data : List Nat} {t ofs1 L ofs2 : Nat}
    (h1 : unmarshalInt data 0 = .ok (t, ofs1))
    (h2 : unmarshalInt data ofs1 = .ok (L, ofs2))
    (hshort : data.length < ofs2 + L) :
    Unmarshal data = .err .errorTruncated := by
  obtain ⟨hb1, hle1⟩ := unmarshalInt_bounds h1
  rw [Unmarshal, unmarshalF]
  rw [if_pos (show 0 < data.length by omega)]
  simp only [h1, h2]
  rw [if_pos (by omega)]

theorem unmarshalIntLoop_eof : ∀ (fuel : Nat) {data : List Nat} (ofs r : Nat),
    (∀ j, j < fuel → ((data[ofs + j]?).getD 128) &&& 128 ≠ 0) →
    unmarshalIntLoop data ofs r fuel = .error .errorEOF := by
  intro fuel
  induction fuel with
  | zero =>
    intro data ofs r _
    rfl
  | succ f ih =>
    intro data ofs r h
    cases hb : data[ofs]? with
    | none => exact unmarshalIntLoop_none _ _ hb
    | some b =>
      have hcont : b &&& 128 ≠ 0 := by
        have := h 0 (by omega)
        rw [show ofs + 0 = ofs by omega, hb] at this
        simpa using this
      rw [unmarshalIntLoop_step _ _ hb hcont]
      refine ih (ofs + 1) _ ?_
      intro j hj
      have := h (j + 1) (by omega)
      rw [show ofs + (j + 1) = ofs + 1 + j by omega] at this
      exact this

/-! ### marshalInt only sees the low 35 bits -/

theorem and_mod_eq {v m k : Nat} (h : m < 2 ^ k) : v &&& m = (v % 2 ^ k) &&& m := by
  apply Nat.eq_of_testBit_eq
  intro j
  by_cases hj : j < k
  · simp [Nat.testBit_and, Nat.testBit_mod_two_pow, hj]
  · have hm : m.testBit j = false :=
      Nat.testBit_lt_two_pow
        (lt_of_lt_of_le h (Nat.pow_le_pow_right (by norm_num) (by omega)))
    simp [Nat.testBit_and, hm]

theorem marshalIntStart_mod (v : Nat) :
    marshalIntStart v = marshalIntStart (v % 2 ^ 35) := by
  rw [marshalIntStart, marshalIntStart]
  rw [and_mod_eq (v := v) (m := 0x7f <<< 28) (k := 35) (by decide),
    and_mod_eq (v := v) (m := 0x7f <<< 21) (k := 35) (by decide),
    and_mod_eq (v := v) (m := 0x7f <<< 14) (k := 35) (by decide),
    and_mod_eq (v := v) (m := 0x7f <<< 7) (k := 35) (by decide)]

theorem marshalIntLoop_mod : ∀ i, i ≤ 4 →
    ∀ v : Nat, marshalIntLoop v i = marshalIntLoop (v % 2 ^ 35) i := by
  intro i hi v
  match i, hi with
  | 0, _ =>
    rw [marshalIntLoop_zero, marshalIntLoop_zero,
      and_mod_eq (v := v) (m := 127) (k := 35) (by decide)]
  | 1, _ =>
    rw [marshalIntLoop_one, marshalIntLoop_one,
      and_mod_eq (v := v) (m := 127 <<< 7) (k := 35) (by decide),
      and_mod_eq (v := v) (m := 127) (k := 35) (by decide)]
  | 2, _ =>
    rw [marshalIntLoop_two, marshalIntLoop_two,
      and_mod_eq (v := v) (m := 127 <<< 14) (k := 35) (by decide),
      and_mod_eq (v := v) (m := 127 <<< 7) (k := 35) (by decide),
      and_mod_eq (v := v) (m := 127) (k := 35) (by decide)]
  | 3, _ =>
    rw [marshalIntLoop_three, marshalIntLoop_three,
      and_mod_eq (v := v) (m := 127 <<< 21) (k := 35) (by decide),
      and_mod_eq (v := v) (m := 127 <<< 14) (k := 35) (by decide),
      and_mod_eq (v := v) (m := 127 <<< 7) (k := 35) (by decide),
      and_mod_eq (v := v) (m := 127) (k := 35) (by decide)]
  | 4, _ =>
    rw [marshalIntLoop_four, marshalIntLoop_four,
      and_mod_eq (v := v) (m := 127 <<< 28) (k := 35) (by decide),
      and_mod_eq (v := v) (m := 127 <<< 21) (k := 35) (by decide),
      and_mod_eq (v := v) (m := 127 <<< 14) (k := 35) (by decide),
      and_mod_eq (v := v) (m := 127 <<< 7) (k := 35) (by decide),
      and_mod_eq (v := v) (m := 127) (k := 35) (by decide)]

theorem marshalIntStart_le (v : Nat) : marshalIntStart v ≤ 4 := by
  rw [marshalIntStart]
  split_ifs <;> norm_num

theorem marshalInt_mod (v : Nat) : marshalInt v = marshalInt (v % 2 ^ 35) := by
  rw [marshalInt, marshalInt, ← marshalIntStart_mod]
  exact marshalIntLoop_mod _ (marshalIntStart_le v) v

/-! ### Classification of marshal outcomes by the first unsupported value -/

theorem marshal_classify : ∀ (n : Nat) (v : Values), sizeOf v ≤ n →
    ∀ ks : List Nat,
      (∀ u, firstUnsupportedKeys v ks = some u →
        marshalKeyList v ks = .error (.unsupportedValue u)) ∧
      (firstUnsupportedKeys v ks = none → ∃ bs, marshalKeyList v ks = .ok bs) := by
  intro n
  induction n with
  | zero =>
    intro v hN
    exfalso
    cases v with
    | nil => simp at hN
    | cons p rest => simp at hN
  | succ n ih =>
    intro v hN ks
    induction ks with
    | nil =>
      constructor
      · intro u hu
        rw [firstUnsupportedKeys_nil] at hu
        cases hu
      · intro _
        exact ⟨[], marshalKeyList_nil v⟩
    | cons k ks ihks =>
      cases hlk : lookupV v k with
      | none =>
        rw [firstUnsupportedKeys_cons_none hlk, marshalKeyList_cons_none hlk]
        exact ihks
      | some x =>
        have hxval : (∀ u, firstUnsupportedV x = some u →
            marshalValue k x = .error (.unsupportedValue u)) ∧
            (firstUnsupportedV x = none → ∃ bs, marshalValue k x = .ok bs) := by
          cases x with
          | vMap m =>
            have hm : sizeOf m ≤ n := by
              have h1 := lookupV_sizeOf hlk
              simp only [Value.vMap.sizeOf_spec] at h1
              omega
            have hrec := ih m hm (Values.Keys m)
            constructor
            · intro u hu
              rw [firstUnsupportedV] at hu
              rw [marshalValue]
              simp only [hrec.1 u hu]
            · intro hu
              rw [firstUnsupportedV] at hu
              obtain ⟨bs, hbs⟩ := hrec.2 hu
              refine ⟨marshalInt (Tag.SetVType (Tag.SetType 0 k) VTMap) ++
                marshalInt bs.length ++ bs, ?_⟩
              rw [marshalValue]
              simp only [hbs]
          | vUnsupported i =>
            constructor
            · intro u hu
              rw [firstUnsupportedV] at hu
              injection hu with h2
              subst h2
              rw [marshalValue]
            · intro hu
              rw [firstUnsupportedV] at hu
              cases hu
          | vBool b =>
            constructor
            · intro u hu
              simp [firstUnsupportedV] at hu
            · intro _
              exact ⟨_, by rw [marshalValue]⟩
          | vUInt8 m =>
            constructor
            · intro u hu
              simp [firstUnsupportedV] at hu
            · intro _
              exact ⟨_, by rw [marshalValue]⟩
          | vUInt16 m =>
            constructor
            · intro u hu
              simp [firstUnsupportedV] at hu
            · intro _
              exact ⟨_, by rw [marshalValue]⟩
          | vUInt32 m =>
            constructor
            · intro u hu
              simp [firstUnsupportedV] at hu
            · intro _
              exact ⟨_, by rw [marshalValue]⟩
          | vUInt64 m =>
            constructor
            · intro u hu
              simp [firstUnsupportedV] at hu
            · intro _
              exact ⟨_, by rw [marshalValue]⟩
          | vString s =>
            constructor
            · intro u hu
              simp [firstUnsupportedV] at hu
            · intro _
              exact ⟨_, by rw [marshalValue]⟩
          | vData bs =>
            constructor
            · intro u hu
              simp [firstUnsupportedV] at hu
            · intro _
              exact ⟨_, by rw [marshalValue]⟩
        rw [firstUnsupportedKeys_cons_some hlk, marshalKeyList_cons_some hlk]
        cases hfx : firstUnsupportedV x with
        | some u =>
          simp only [hfx]
          constructor
          · intro u2 hu2
            injection hu2 with h2
            subst h2
            simp only [hxval.1 _ hfx]
          · intro hnone
            cases hnone
        | none =>
          simp only [hfx]
          obtain ⟨bs, hbs⟩ := hxval.2 hfx
          simp only [hbs]
          constructor
          · intro u hu
            simp only [ihks.1 u hu]
          · intro hnone
            obtain ⟨bs2, hbs2⟩ := ihks.2 hnone
            exact ⟨bs ++ bs2, by simp only [hbs2]⟩

theorem firstUnsupportedKeys_some_of_mem {v : Values} {k i : Nat}
    (hk : lookupV v k = some (.vUnsupported i)) :
    ∀ ks : List Nat, k ∈ ks → ∃ u, firstUnsupportedKeys v ks = some u := by
  intro ks
  induction ks with
  | nil =>
    intro h
    simp at h
  | cons k2 ks ih =>
    intro hmem
    cases hlk2 : lookupV v k2 with
    | none =>
      rw [firstUnsupportedKeys_cons_none hlk2]
      apply ih
      rcases List.mem_cons.mp hmem with rfl | h2
      · rw [hk] at hlk2
        cases hlk2
      · exact h2
    | some x =>
      rw [firstUnsupportedKeys_cons_some hlk2]
      cases hfx : firstUnsupportedV x with
      | some u => exact ⟨u, by simp only [hfx]⟩
      | none =>
        simp only [hfx]
        apply ih
        rcases List.mem_cons.mp hmem with rfl | h2
        · rw [hk] at hlk2
          injection hlk2 with h3
          rw [← h3] at hfx
          rw [firstUnsupportedV] at hfx
          cases hfx
        · exact h2

/-! ### Sorting lemmas for key order -/

theorem mem_insertKey {a k : Nat} {l : List Nat} :
    a ∈ insertKey k l ↔ a = k ∨ a ∈ l := by
  induction l with
  | nil => simp [insertKey]
  | cons k2 rest ih =>
    rw [insertKey]
    by_cases h : k ≤ k2
    · rw [if_pos h]
      simp
    · rw [if_neg h]
      simp only [List.mem_cons, ih]
      tauto

theorem mem_sortKeys {a : Nat} {l : List Nat} : a ∈ sortKeys l ↔ a ∈ l := by
  induction l with
  | nil => simp [sortKeys]
  | cons k rest ih =>
    rw [sortKeys, mem_insertKey]
    simp [ih]

theorem insertKey_perm (k : Nat) (l : List Nat) : List.Perm (insertKey k l) (k :: l) := by
  induction l with
  | nil => rfl
  | cons k2 rest ih =>
    rw [insertKey]
    by_cases h : k ≤ k2
    · rw [if_pos h]
    · rw [if_neg h]
      exact (ih.cons k2).trans (List.Perm.swap k k2 rest)

theorem sortKeys_perm (l : List Nat) : List.Perm (sortKeys l) l := by
  induction l with
  | nil => rfl
  | cons k rest ih =>
    rw [sortKeys]
    exact (insertKey_perm k (sortKeys rest)).trans (ih.cons k)

theorem pairwise_insertKey {k : Nat} {l : List Nat}
    (h : l.Pairwise (· ≤ ·)) : (insertKey k l).Pairwise (· ≤ ·) := by
  induction l with
  | nil => simp [insertKey]
  | cons k2 rest ih =>
    rw [List.pairwise_cons] at h
    obtain ⟨h2, h3⟩ := h
    rw [insertKey]
    by_cases hk : k ≤ k2
    · rw [if_pos hk]
      refine List.Pairwise.cons ?_ (List.Pairwise.cons h2 h3)
      intro b hb
      rcases List.mem_cons.mp hb with rfl | hb2
      · exact hk
      · exact le_trans hk (h2 b hb2)
    · rw [if_neg hk]
      refine List.Pairwise.cons ?_ (ih h3)
      intro b hb
      rcases mem_insertKey.mp hb with rfl | hb2
      · omega
      · exact h2 b hb2

theorem pairwise_sortKeys (l : List Nat) : (sortKeys l).Pairwise (· ≤ ·) := by
  induction l with
  | nil => simp [sortKeys]
  | cons k rest ih =>
    rw [sortKeys]
    exact pairwise_insertKey ih

theorem Keys_eq_of_lookup_eq {v w : Values} (hv : (v.map Prod.fst).Nodup)
    (hw : (w.map Prod.fst).Nodup) (hl : ∀ k, lookupV v k = lookupV w k) :
    Values.Keys v = Values.Keys w := by
  have hmemeq : ∀ a, a ∈ v.map Prod.fst ↔ a ∈ w.map Prod.fst := by
    intro a
    constructor
    · intro hmv
      by_contra hnm
      rw [← lookupV_eq_none_iff, ← hl a, lookupV_eq_none_iff] at hnm
      exact hnm hmv
    · intro hmw
      by_contra hnm
      rw [← lookupV_eq_none_iff, hl a, lookupV_eq_none_iff] at hnm
      exact hnm hmw
  have hperm : List.Perm (v.map Prod.fst) (w.map Prod.fst) :=
    (List.perm_ext_iff_of_nodup hv hw).mpr hmemeq
  have h1 : List.Perm (sortKeys (v.map Prod.fst)) (sortKeys (w.map Prod.fst)) :=
    ((sortKeys_perm _).trans hperm).trans (sortKeys_perm _).symm
  exact List.eq_of_perm_of_sorted h1 (pairwise_sortKeys _) (pairwise_sortKeys _)

/-! ### Claim theorems -/

/-- Claim C10: `Unmarshal` terminates on every finite input buffer.  With
fuel `data.length + 1` the decode loop always completes: each iteration
consumes at least the two header-varint bytes before its payload, and the
recursive call for a nested-map field runs on a payload slice strictly
shorter than the enclosing buffer. -/
theorem unmarshal_terminates (data : List Nat) :
    ∃ r, unmarshalF (data.length + 1) data 0 [] = some r ∧ Unmarshal data = r := by
  have h := unmarshalF_isSome (data.length + 1) data 0 [] (by omega)
  obtain ⟨r, hr⟩ := Option.isSome_iff_exists.mp h
  refine ⟨r, hr, ?_⟩
  rw [Unmarshal, hr]

/-- Claim C4: for every buffer beginning with a well-formed tag varint and
length varint declaring payload length `L`, if fewer than `L` bytes remain
after the two header varints, `Unmarshal` fails with the truncated-data
condition (`ErrorTruncated`) and returns no mapping. -/
theorem unmarshal_truncated_of_short_payload (data : List Nat) (t ofs1 L ofs2 : Nat)
    (h1 : unmarshalInt data 0 = .ok (t, ofs1))
    (h2 : unmarshalInt data ofs1 = .ok (L, ofs2))
    (hshort : data.length < ofs2 + L) :
    Unmarshal data = .err .errorTruncated :=
  unmarshal_header_truncated h1 h2 hshort

/-- Witness for C4: the buffer `[0x02, 0x05]` declares a 5-byte string
payload for field 0 but provides none. -/
theorem unmarshal_truncated_of_short_payload_witness :
    unmarshalInt [2, 5] 0 = .ok (2, 1) ∧ unmarshalInt [2, 5] 1 = .ok (5, 2) ∧
    ([2, 5] : List Nat).length < 2 + 5 ∧
    Unmarshal [2, 5] = .err .errorTruncated :=
  ⟨rfl, rfl, by norm_num,
    unmarshal_truncated_of_short_payload [2, 5] 2 1 5 2 rfl rfl (by norm_num)⟩

/-- Claim C5: the varint decoder fails with `ErrorEOF` whenever no byte with
a clear continuation bit is reached within 5 bytes: every byte at
`ofs..ofs+4` either lies past the end of the buffer (`getD` default 128) or
has bit 0x80 set.  This covers both the 5×0x80 buffer and buffer
exhaustion. -/
theorem unmarshalInt_eof (data : List Nat) (ofs : Nat)
    (h : ∀ j, j < 5 → ((data[ofs + j]?).getD 128) &&& 0x80 ≠ 0) :
    unmarshalInt data ofs = .error .errorEOF := by
  rw [unmarshalInt]
  exact unmarshalIntLoop_eof 5 ofs 0 h

/-- Witness for C5: five bytes, all `0x80`. -/
theorem unmarshalInt_eof_witness :
    unmarshalInt [0x80, 0x80, 0x80, 0x80, 0x80] 0 = .error .errorEOF :=
  unmarshalInt_eof [0x80, 0x80, 0x80, 0x80, 0x80] 0 (by decide)

/-- Claim C2: the varint encoder is canonical: 0 encodes as `[0x00]`, 127 as
`[0x7f]`, 128 as `[0x81, 0x00]`, and for every value the first emitted byte
is either terminal (continuation bit clear) or has a non-zero 7-bit
payload. -/
theorem marshalInt_canonical :
    marshalInt 0 = [0x00] ∧ marshalInt 127 = [0x7f] ∧
    marshalInt 128 = [0x81, 0x00] ∧
    ∀ v : Nat, (marshalInt v).headD 0 &&& 0x80 = 0 ∨
      (marshalInt v).headD 0 &&& 0x7f ≠ 0 := by
  refine ⟨rfl, rfl, rfl, ?_⟩
  intro v
  rw [marshalInt]
  by_cases h4 : v &&& (127 <<< 28) ≠ 0
  · right
    have hs : marshalIntStart v = 4 := by rw [marshalIntStart, if_pos h4]
    rw [hs, marshalIntLoop_four]
    simp only [List.headD_cons]
    rw [mask_shift_eq, or128_and127 (show v / 2 ^ 28 % 128 < 128 by omega)]
    rw [mask_and_eq] at h4
    omega
  · by_cases h3 : v &&& (127 <<< 21) ≠ 0
    · right
      have hs : marshalIntStart v = 3 := by
        rw [marshalIntStart, if_neg h4, if_pos h3]
      rw [hs, marshalIntLoop_three]
      simp only [List.headD_cons]
      rw [mask_shift_eq, or128_and127 (show v / 2 ^ 21 % 128 < 128 by omega)]
      rw [mask_and_eq] at h3
      omega
    · by_cases h2 : v &&& (127 <<< 14) ≠ 0
      · right
        have hs : marshalIntStart v = 2 := by
          rw [marshalIntStart, if_neg h4, if_neg h3, if_pos h2]
        rw [hs, marshalIntLoop_two]
        simp only [List.headD_cons]
        rw [mask_shift_eq, or128_and127 (show v / 2 ^ 14 % 128 < 128 by omega)]
        rw [mask_and_eq] at h2
        omega
      · by_cases h1 : v &&& (127 <<< 7) ≠ 0
        · right
          have hs : marshalIntStart v = 1 := by
            rw [marshalIntStart, if_neg h4, if_neg h3, if_neg h2, if_pos h1]
          rw [hs, marshalIntLoop_one]
          simp only [List.headD_cons]
          rw [mask_shift_eq, or128_and127 (show v / 2 ^ 7 % 128 < 128 by omega)]
          rw [mask_and_eq] at h1
          omega
        · left
          have hs : marshalIntStart v = 0 := by
            rw [marshalIntStart, if_neg h4, if_neg h3, if_neg h2, if_neg h1]
          rw [hs, marshalIntLoop_zero]
          simp only [List.headD_cons]
          rw [and127_eq]
          exact and128_eq_zero (Nat.mod_lt _ (by norm_num))

/-- Claim C9: for every 64-bit value `v ≥ 2^35` the varint encoder silently
drops every bit above bit 34; it emits exactly the encoding of `v mod 2^35`,
which is what decoding returns, with no error. -/
theorem marshalInt_truncates (v : Nat) (hv64 : v < 2 ^ 64) (hge : 2 ^ 35 ≤ v) :
    marshalInt v = marshalInt (v % 2 ^ 35) ∧
    unmarshalInt (marshalInt v) 0 = .ok (v % 2 ^ 35, (marshalInt v).length) ∧
    v % 2 ^ 35 ≠ v := by
  have h1 := marshalInt_mod v
  refine ⟨h1, ?_, ?_⟩
  · have h2 := unmarshalInt_marshalInt
      (show v % 2 ^ 35 < 2 ^ 35 from Nat.mod_lt _ (by norm_num))
      (marshalInt v) [] 0 (by rw [h1]; simp)
    rw [← h1] at h2
    simpa using h2
  · have := Nat.mod_lt v (show 0 < 2 ^ 35 by norm_num)
    omega

/-- Witness for C9 at `v = 2^35`. -/
theorem marshalInt_truncates_witness :
    marshalInt (2 ^ 35) = marshalInt (2 ^ 35 % 2 ^ 35) ∧
    unmarshalInt (marshalInt (2 ^ 35)) 0
      = .ok (2 ^ 35 % 2 ^ 35, (marshalInt (2 ^ 35)).length) ∧
    2 ^ 35 % 2 ^ 35 ≠ 2 ^ 35 :=
  marshalInt_truncates (2 ^ 35) (by norm_num) (by norm_num)

/-- Claim C3: a mapping holding at least one field of an unsupported kind
fails to marshal: `Marshal` returns the unsupported-value error carrying the
first unsupported value met while walking identifiers in ascending order
(nested maps depth-first), and no output bytes. -/
theorem marshal_unsupported (v : Values) (k i : Nat)
    (hk : lookupV v k = some (.vUnsupported i)) :
    ∃ u, firstUnsupportedVs v = some u ∧
      Values.Marshal v = .error (.unsupportedValue u) := by
  have hmemf : k ∈ v.map Prod.fst := by
    by_contra hnm
    rw [← lookupV_eq_none_iff] at hnm
    rw [hnm] at hk
    cases hk
  have hmem : k ∈ Values.Keys v := by
    rw [Values.Keys, mem_sortKeys]
    exact hmemf
  obtain ⟨u, hu⟩ := firstUnsupportedKeys_some_of_mem hk (Values.Keys v) hmem
  refine ⟨u, ?_, ?_⟩
  · rw [firstUnsupportedVs]
    exact hu
  · rw [Values.Marshal]
    exact (marshal_classify (sizeOf v) v le_rfl (Values.Keys v)).1 u hu

/-- Witness for C3: two unsupported fields; the smaller key (0) is blamed. -/
theorem marshal_unsupported_witness :
    lookupV [(1, Value.vUnsupported 0), (0, Value.vUnsupported 7)] 1
      = some (Value.vUnsupported 0) ∧
    (∃ u, firstUnsupportedVs [(1, Value.vUnsupported 0), (0, Value.vUnsupported 7)]
        = some u ∧
      Values.Marshal [(1, Value.vUnsupported 0), (0, Value.vUnsupported 7)]
        = .error (.unsupportedValue u)) :=
  ⟨rfl, marshal_unsupported _ 1 0 rfl⟩

/-- Claim C8: `Marshal` is deterministic.  Two mappings with the same
key-value content (identical lookups, unique keys) marshal to byte-identical
output regardless of the association-list order, because fields are emitted
in ascending numeric key order and varint forms are canonical. -/
theorem marshal_deterministic (v w : Values) (hv : (v.map Prod.fst).Nodup)
    (hw : (w.map Prod.fst).Nodup) (hl : ∀ k, lookupV v k = lookupV w k) :
    Values.Marshal v = Values.Marshal w := by
  rw [Values.Marshal, Values.Marshal, Keys_eq_of_lookup_eq hv hw hl]
  exact marshalKeyList_congr _ (fun k _ => hl k)

/-- Witness for C8: the same two fields listed in different orders. -/
theorem marshal_deterministic_witness :
    Values.Marshal [(3, Value.vBool true), (1, Value.vUInt8 5)] =
      Values.Marshal [(1, Value.vUInt8 5), (3, Value.vBool true)] :=
  marshal_deterministic _ _ (by decide) (by decide) (fun k => by
    match k with
    | 0 => rfl
    | 1 => rfl
    | 2 => rfl
    | 3 => rfl
    | n + 4 => rfl)

/-- Claim C7 (amended): whenever a fixed-width integer payload (declared
length 1, 2, 4 or 8) would run past the end of the buffer, `Unmarshal`
fails with the truncated-data condition `ErrorTruncated` (not
`ErrorEOF`): the general length bounds check fires before the payload is
read. -/
theorem unmarshal_fixed_int_truncated (data : List Nat) (t ofs1 L ofs2 : Nat)
    (h1 : unmarshalInt data 0 = .ok (t, ofs1))
    (h2 : unmarshalInt data ofs1 = .ok (L, ofs2))
    (hvt : tagVType t = VTInt)
    (hL : L = 1 ∨ L = 2 ∨ L = 4 ∨ L = 8)
    (hshort : data.length < ofs2 + L) :
    Unmarshal data = .err .errorTruncated :=
  unmarshal_header_truncated h1 h2 hshort

/-- Counterexample for C7 as frozen: the buffer `[0x01, 0x04]` declares a
4-byte integer payload for field 0 and then ends; the code reports
`ErrorTruncated`, not the claimed `ErrorEOF`. -/
theorem unmarshal_fixed_int_truncated_not_eof :
    Unmarshal [1, 4] = .err .errorTruncated ∧
    Unmarshal [1, 4] ≠ .err .errorEOF := by
  have h : Unmarshal [1, 4] = .err .errorTruncated :=
    unmarshal_header_truncated (t := 1) (L := 4) rfl rfl (by norm_num)
  refine ⟨h, ?_⟩
  rw [h]
  simp

/-- Witness for the amended C7 at the buffer `[0x01, 0x04]`. -/
theorem unmarshal_fixed_int_truncated_witness :
    Unmarshal [1, 4] = .err .errorTruncated :=
  unmarshal_fixed_int_truncated [1, 4] 1 1 4 2 rfl rfl rfl (by decide) (by norm_num)

/-- Shareable form of the bounded round trip. -/
theorem roundtrip_ok (v : Values) (hs : sortedKeys v = true)
    (hw : ValuesWF v = true) :
    ∃ d, Values.Marshal v = .ok d ∧ Unmarshal d = .ok v := by
  obtain ⟨d, hm, hlen, hdec⟩ := roundtrip_aux (sizeOf v) v le_rfl hs hw
  refine ⟨d, hm, ?_⟩
  have h := hdec (d.length + 1) d 0 [] (by simp) (by omega) (fun p _ => rfl)
  rw [Unmarshal, h]
  simp

/-- Claim C1 (amended): round trip on mappings whose payload lengths all fit
the 35-bit varint range.  A mapping in canonical (key-sorted) form whose
fields hold only the five supported value kinds, with uintN values in range,
byte-valued text/data shorter than 2^35, and nested maps (recursively
canonical) whose encodings are shorter than 2^35, marshals successfully and
unmarshals back to exactly the same mapping, each integer at its exact
width. -/
theorem tlv_roundtrip (v : Values) (hs : sortedKeys v = true)
    (hw : ValuesWF v = true) :
    ∃ d, Values.Marshal v = .ok d ∧ Unmarshal d = .ok v :=
  roundtrip_ok v hs hw

/-- Witness for C1 (amended): a mapping exercising all five kinds and all
four integer widths, with a nested map. -/
theorem tlv_roundtrip_witness :
    ∃ d, Values.Marshal [(0, Value.vBool true), (1, Value.vUInt8 8),
      (2, Value.vUInt16 16), (3, Value.vUInt32 32), (4, Value.vUInt64 64),
      (5, Value.vString [102, 111, 111]), (6, Value.vData [1, 2, 3, 4]),
      (7, Value.vMap [(3, Value.vUInt32 0)])] = .ok d ∧
    Unmarshal d = .ok [(0, Value.vBool true), (1, Value.vUInt8 8),
      (2, Value.vUInt16 16), (3, Value.vUInt32 32), (4, Value.vUInt64 64),
      (5, Value.vString [102, 111, 111]), (6, Value.vData [1, 2, 3, 4]),
      (7, Value.vMap [(3, Value.vUInt32 0)])] :=
  tlv_roundtrip _ (by decide) (by decide)

/-- A singleton text mapping marshals to tag varint, length varint, then the
raw bytes (proved for an arbitrary payload `s`). -/
theorem marshal_single_string_any {k : Nat} (hk : k < 2 ^ 32) (s : List Nat) :
    Values.Marshal [(k, Value.vString s)]
      = .ok (marshalInt (8 * k + 2) ++ marshalInt s.length ++ s) := by
  rw [Values.Marshal]
  rw [show Values.Keys [(k, Value.vString s)] = [k] from rfl]
  rw [marshalKeyList_cons_some lookupV_cons_self]
  simp only [marshalValue, marshalKeyList_nil]
  rw [tag_eq hk (show VTString < 8 by decide)]
  simp only [VTString]
  simp

/-- Marshal of a mapping holding a 2^35-byte text: the length varint is
silently truncated to `[0x00]`. -/
theorem tlv_marshal_huge_string :
    Values.Marshal [(0, Value.vString (List.replicate (2 ^ 35) 97))]
      = .ok (2 :: 0 :: List.replicate (2 ^ 35) 97) := by
  rw [marshal_single_string_any (by norm_num) (List.replicate (2 ^ 35) 97)]
  rw [List.length_replicate]
  rw [show marshalInt (8 * 0 + 2) = [2] from rfl, show marshalInt (2 ^ 35) = [0] from rfl]
  simp only [List.cons_append, List.nil_append]

/-- Decoding a buffer that starts with a zero-length text record and then
byte 97 twice: the decoder reads the empty text, then parses 97 as the next
tag (`VTInt`) and 97 as its length, and fails on the invalid integer
length (proved for an arbitrary tail `rest` long enough to pass the
truncation check). -/
theorem unmarshal_zero_string_then_97 (rest : List Nat) (h97 : 97 ≤ rest.length) :
    Unmarshal (2 :: 0 :: 97 :: 97 :: rest) = .err (.invalidIntLength 97) := by
  have hL : (2 :: 0 :: 97 :: 97 :: rest).length = rest.length + 3 + 1 := by
    simp only [List.length_cons]
  have hu0 : unmarshalInt (2 :: 0 :: 97 :: 97 :: rest) 0 = .ok (2, 1) := by
    rw [unmarshalInt, unmarshalIntLoop_last 0 4
      (show (2 :: 0 :: 97 :: 97 :: rest)[0]? = some 2 by simp) (by decide)]
    simp [and127_eq]
  have hu1 : unmarshalInt (2 :: 0 :: 97 :: 97 :: rest) 1 = .ok (0, 2) := by
    rw [unmarshalInt, unmarshalIntLoop_last 0 4
      (show (2 :: 0 :: 97 :: 97 :: rest)[1]? = some 0 by simp) (by decide)]
    simp
  have hu2 : unmarshalInt (2 :: 0 :: 97 :: 97 :: rest) (2 + 0) = .ok (97, 3) := by
    rw [unmarshalInt, unmarshalIntLoop_last 0 4
      (show (2 :: 0 :: 97 :: 97 :: rest)[2 + 0]? = some 97 by simp) (by decide)]
    simp [and127_eq]
  have hu3 : unmarshalInt (2 :: 0 :: 97 :: 97 :: rest) 3 = .ok (97, 4) := by
    rw [unmarshalInt, unmarshalIntLoop_last 0 4
      (show (2 :: 0 :: 97 :: 97 :: rest)[3]? = some 97 by simp) (by decide)]
    simp [and127_eq]
  rw [Unmarshal, hL, unmarshalF, hL]
  rw [if_pos (show 0 < rest.length + 3 + 1 by omega)]
  simp only [hu0, hu1]
  rw [if_neg (show ¬(2 + 0 > rest.length + 3 + 1) by omega)]
  rw [show tagVType 2 = 2 from rfl]
  rw [if_neg (by decide), if_neg (by decide), if_pos (by decide)]
  simp only [show tagType 2 = 0 from rfl,
    show sub (2 :: 0 :: 97 :: 97 :: rest) 2 0 = [] from rfl,
    show insertV [] 0 (Value.vString []) = [(0, Value.vString [])] from rfl]
  rw [unmarshalF, hL]
  rw [if_pos (show 2 + 0 < rest.length + 3 + 1 by omega)]
  simp only [hu2, hu3]
  rw [if_neg (show ¬(4 + 97 > rest.length + 3 + 1) by omega)]
  rw [show tagVType 97 = 1 from rfl]
  rw [if_neg (by decide), if_pos (by decide)]
  rw [if_neg (by decide), if_neg (by decide), if_neg (by decide), if_neg (by decide)]

/-- Unmarshal of that output fails: the zero length makes the decoder treat
the text bytes as further records, and byte 97 yields an invalid integer
length. -/
theorem tlv_unmarshal_huge_string :
    Unmarshal (2 :: 0 :: List.replicate (2 ^ 35) 97)
      = .err (.invalidIntLength 97) := by
  have h2 : (2 : Nat) ^ 35 = (2 ^ 35 - 2) + 1 + 1 := by norm_num
  have hrep : List.replicate (2 ^ 35) (97 : Nat)
      = 97 :: 97 :: List.replicate (2 ^ 35 - 2) 97 := by
    conv_lhs => rw [h2]
    rw [List.replicate_succ, List.replicate_succ]
  rw [hrep]
  rw [unmarshal_zero_string_then_97 (List.replicate (2 ^ 35 - 2) 97)
    (by rw [List.length_replicate]; norm_num)]

/-- Counterexample for C1 as frozen: a mapping holding only a supported
value kind (one text field of 2^35 bytes) does NOT round-trip.  Marshal
truncates the length varint to 0, and Unmarshal then fails with an
invalid-integer-length error instead of returning the mapping. -/
theorem tlv_roundtrip_fails_at_huge_string :
    Values.Marshal [(0, Value.vString (List.replicate (2 ^ 35) 97))]
      = .ok (2 :: 0 :: List.replicate (2 ^ 35) 97) ∧
    Unmarshal (2 :: 0 :: List.replicate (2 ^ 35) 97)
      = .err (.invalidIntLength 97) ∧
    Unmarshal (2 :: 0 :: List.replicate (2 ^ 35) 97)
      ≠ .ok [(0, Value.vString (List.replicate (2 ^ 35) 97))] := by
  refine ⟨tlv_marshal_huge_string, tlv_unmarshal_huge_string, ?_⟩
  rw [tlv_unmarshal_huge_string]
  exact fun h => UResult.noConfusion h

/-! ### Zero-length fields (C6) -/

theorem marshal_single_empty_string {k : Nat} (hk : k < 2 ^ 32) :
    Values.Marshal [(k, Value.vString [])] = .ok (marshalInt (8 * k + 2) ++ [0]) := by
  rw [Values.Marshal]
  rw [show Values.Keys [(k, Value.vString [])] = [k] from rfl]
  rw [marshalKeyList_cons_some lookupV_cons_self]
  simp only [marshalValue, marshalKeyList_nil]
  rw [tag_eq hk (show VTString < 8 by decide)]
  simp only [VTString, List.length_nil]
  rw [show marshalInt 0 = [0] from rfl]
  simp

theorem marshal_single_empty_data {k : Nat} (hk : k < 2 ^ 32) :
    Values.Marshal [(k, Value.vData [])] = .ok (marshalInt (8 * k + 3) ++ [0]) := by
  rw [Values.Marshal]
  rw [show Values.Keys [(k, Value.vData [])] = [k] from rfl]
  rw [marshalKeyList_cons_some lookupV_cons_self]
  simp only [marshalValue, marshalKeyList_nil]
  rw [tag_eq hk (show VTData < 8 by decide)]
  simp only [VTData, List.length_nil]
  rw [show marshalInt 0 = [0] from rfl]
  simp

theorem marshal_single_empty_map {k : Nat} (hk : k < 2 ^ 32) :
    Values.Marshal [(k, Value.vMap [])] = .ok (marshalInt (8 * k + 4) ++ [0]) := by
  rw [Values.Marshal]
  rw [show Values.Keys [(k, Value.vMap [])] = [k] from rfl]
  rw [marshalKeyList_cons_some lookupV_cons_self]
  simp only [marshalValue]
  rw [show Values.Keys ([] : Values) = [] from rfl]
  simp only [marshalKeyList_nil]
  rw [tag_eq hk (show VTMap < 8 by decide)]
  simp only [VTMap, List.length_nil]
  rw [show marshalInt 0 = [0] from rfl]
  simp

theorem marshalValue_empty_string {k : Nat} (hk : k < 2 ^ 32) :
    marshalValue k (Value.vString []) = .ok (marshalInt (8 * k + 2) ++ [0]) := by
  rw [marshalValue]
  rw [tag_eq hk (show VTString < 8 by decide)]
  simp only [VTString, List.length_nil]
  rw [show marshalInt 0 = [0] from rfl]
  simp

theorem marshalValue_bool_true {k : Nat} (hk : k < 2 ^ 32) :
    marshalValue k (Value.vBool true) = .ok (marshalInt (8 * k + 0) ++ [1, 1]) := by
  rw [marshalValue]
  rw [tag_eq hk (show VTBool < 8 by decide)]
  simp only [VTBool]
  simp

theorem marshal_pair_empty_string {k k2 : Nat} (hk : k < 2 ^ 32) (hk2 : k2 < 2 ^ 32)
    (hkk : k < k2) :
    Values.Marshal [(k, Value.vString []), (k2, Value.vBool true)]
      = .ok (marshalInt (8 * k + 2) ++ [0] ++ (marshalInt (8 * k2 + 0) ++ [1, 1])) := by
  rw [Values.Marshal]
  have hkeys : Values.Keys [(k, Value.vString []), (k2, Value.vBool true)]
      = [k, k2] := by
    simp only [Values.Keys, List.map_cons, List.map_nil, sortKeys, insertKey]
    rw [if_pos (Nat.le_of_lt hkk)]
  have hlk2 : lookupV [(k, Value.vString []), (k2, Value.vBool true)] k2
      = some (Value.vBool true) := by
    rw [lookupV_cons_ne (by omega)]
    exact lookupV_cons_self
  rw [hkeys, marshalKeyList_cons_some lookupV_cons_self]
  simp only [marshalValue_empty_string hk]
  rw [marshalKeyList_cons_some hlk2]
  simp only [marshalValue_bool_true hk2, marshalKeyList_nil]
  simp [List.append_assoc]

theorem unmarshal_zero_length_int {k : Nat} (hk : k < 2 ^ 32) :
    Unmarshal (marshalInt (8 * k + 1) ++ [0]) = .err (.invalidIntLength 0) := by
  have hd0 : (marshalInt (8 * k + 1) ++ [0]).drop 0
      = marshalInt (8 * k + 1) ++ (marshalInt 0 ++ []) := by
    rw [show marshalInt 0 = [0] from rfl]
    simp
  have ht1 := unmarshalInt_marshalInt (show 8 * k + 1 < 2 ^ 35 by omega)
    (marshalInt (8 * k + 1) ++ [0]) _ 0 hd0
  have hd1a := drop_append_elim hd0
  have ht2 := unmarshalInt_marshalInt (show (0 : Nat) < 2 ^ 35 by norm_num)
    (marshalInt (8 * k + 1) ++ [0]) _ _ hd1a
  have hlen : (marshalInt (8 * k + 1) ++ [0]).length
      = (marshalInt (8 * k + 1)).length + 1 := by simp
  have e0 : (marshalInt 0).length = 1 := rfl
  have hpos : 0 < (marshalInt (8 * k + 1) ++ [0]).length := by rw [hlen]; omega
  have hnotr : ¬(0 + (marshalInt (8 * k + 1)).length + (marshalInt 0).length + 0
      > (marshalInt (8 * k + 1) ++ [0]).length) := by rw [hlen, e0]; omega
  rw [Unmarshal, unmarshalF]
  rw [if_pos hpos]
  simp only [ht1, ht2]
  rw [if_neg hnotr]
  rw [tagVType_eq (show (1 : Nat) < 8 by norm_num)]
  rw [if_neg (by decide), if_pos (by decide)]
  rw [if_neg (by decide), if_neg (by decide), if_neg (by decide), if_neg (by decide)]

theorem unmarshal_zero_length_bool {k : Nat} (hk : k < 2 ^ 32) :
    Unmarshal (marshalInt (8 * k + 0) ++ [0]) = .crash := by
  have hd0 : (marshalInt (8 * k + 0) ++ [0]).drop 0
      = marshalInt (8 * k + 0) ++ (marshalInt 0 ++ []) := by
    rw [show marshalInt 0 = [0] from rfl]
    simp
  have ht1 := unmarshalInt_marshalInt (show 8 * k + 0 < 2 ^ 35 by omega)
    (marshalInt (8 * k + 0) ++ [0]) _ 0 hd0
  have hd1a := drop_append_elim hd0
  have ht2 := unmarshalInt_marshalInt (show (0 : Nat) < 2 ^ 35 by norm_num)
    (marshalInt (8 * k + 0) ++ [0]) _ _ hd1a
  have hlen : (marshalInt (8 * k + 0) ++ [0]).length
      = (marshalInt (8 * k + 0)).length + 1 := by simp
  have e0 : (marshalInt 0).length = 1 := rfl
  have hnone : (marshalInt (8 * k + 0) ++ [0])[0 + (marshalInt (8 * k + 0)).length
      + (marshalInt 0).length]? = none := by
    apply List.getElem?_eq_none
    rw [hlen, e0]
    omega
  have hpos : 0 < (marshalInt (8 * k + 0) ++ [0]).length := by rw [hlen]; omega
  have hnotr : ¬(0 + (marshalInt (8 * k + 0)).length + (marshalInt 0).length + 0
      > (marshalInt (8 * k + 0) ++ [0]).length) := by rw [hlen, e0]; omega
  rw [Unmarshal, unmarshalF]
  rw [if_pos hpos]
  simp only [ht1, ht2]
  rw [if_neg hnotr]
  rw [tagVType_eq (show (0 : Nat) < 8 by norm_num)]
  rw [if_pos (by decide)]
  simp only [hnone]

/-- Claim C6 (amended): how `Unmarshal` treats zero-length fields, by kind.
Text, byte-sequence and map fields of declared length zero are tolerated:
they decode to empty values and decoding continues with the remaining
records.  A zero-length integer field fails with the invalid-integer-length
error.  A zero-length Boolean field reads the byte at its payload offset
without checking the declared length, which is out of bounds (a runtime
panic, `UResult.crash`) when the field is the last record of the buffer. -/
theorem unmarshal_zero_length_fields (k k2 : Nat) (hk : k < 2 ^ 32)
    (hk2 : k2 < 2 ^ 32) (hkk : k < k2) :
    Unmarshal (marshalInt (8 * k + 2) ++ [0]) = .ok [(k, .vString [])] ∧
    Unmarshal (marshalInt (8 * k + 3) ++ [0]) = .ok [(k, .vData [])] ∧
    Unmarshal (marshalInt (8 * k + 4) ++ [0]) = .ok [(k, .vMap [])] ∧
    Unmarshal (marshalInt (8 * k + 2) ++ [0] ++ (marshalInt (8 * k2 + 0) ++ [1, 1]))
      = .ok [(k, .vString []), (k2, .vBool true)] ∧
    Unmarshal (marshalInt (8 * k + 1) ++ [0]) = .err (.invalidIntLength 0) ∧
    Unmarshal (marshalInt (8 * k + 0) ++ [0]) = .crash := by
  refine ⟨?_, ?_, ?_, ?_, unmarshal_zero_length_int hk, unmarshal_zero_length_bool hk⟩
  · obtain ⟨d, hd, hu⟩ := roundtrip_ok [(k, Value.vString [])] rfl
      (by simp [ValuesWF, ValueWF]; omega)
    rw [marshal_single_empty_string hk] at hd
    injection hd with hde
    rwa [← hde] at hu
  · obtain ⟨d, hd, hu⟩ := roundtrip_ok [(k, Value.vData [])] rfl
      (by simp [ValuesWF, ValueWF]; omega)
    rw [marshal_single_empty_data hk] at hd
    injection hd with hde
    rwa [← hde] at hu
  · obtain ⟨d, hd, hu⟩ := roundtrip_ok [(k, Value.vMap [])] rfl
      (by simp [ValuesWF, ValueWF, sortedKeys, encLen]; omega)
    rw [marshal_single_empty_map hk] at hd
    injection hd with hde
    rwa [← hde] at hu
  · obtain ⟨d, hd, hu⟩ := roundtrip_ok [(k, Value.vString []), (k2, Value.vBool true)]
      (by simp [sortedKeys, hkk]) (by simp [ValuesWF, ValueWF]; omega)
    rw [marshal_pair_empty_string hk hk2 hkk] at hd
    injection hd with hde
    rwa [← hde] at hu

/-- Counterexample for C6 as frozen: the two-byte buffer `[0x00, 0x00]` is a
zero-length Boolean field as the last record; the decoder reads `data[ofs]`
without checking the length and indexes one past the end of the buffer — a
runtime panic (out-of-bounds access), not a tolerated field. -/
theorem unmarshal_zero_length_bool_crash : Unmarshal [0, 0] = UResult.crash := rfl

/-- Witness for the amended C6 at keys 5 and 7. -/
theorem unmarshal_zero_length_fields_witness :
    Unmarshal (marshalInt (8 * 5 + 2) ++ [0]) = .ok [(5, .vString [])] ∧
    Unmarshal (marshalInt (8 * 5 + 3) ++ [0]) = .ok [(5, .vData [])] ∧
    Unmarshal (marshalInt (8 * 5 + 4) ++ [0]) = .ok [(5, .vMap [])] ∧
    Unmarshal (marshalInt (8 * 5 + 2) ++ [0] ++ (marshalInt (8 * 7 + 0) ++ [1, 1]))
      = .ok [(5, .vString []), (7, .vBool true)] ∧
    Unmarshal (marshalInt (8 * 5 + 1) ++ [0]) = .err (.invalidIntLength 0) ∧
    Unmarshal (marshalInt (8 * 5 + 0) ++ [0]) = .crash :=
  unmarshal_zero_length_fields 5 7 (by norm_num) (by norm_num) (by norm_num)
